import Mathlib

/-!
Verification development for the `orby_rs` columnar ring-buffer engine.

The in-memory data model and the ring-buffer logic of `src/logic/ring.rs`
(and the façade wrappers of `src/engine/*.rs` that the claims reference)
are embedded shallowly: a 128-bit `PulseCell` becomes a `Nat` (the code
only copies cells and compares them with `0` or with a given id, so no
modular arithmetic is observable), a lane (`OrbyRingBuffer`) becomes a
`List Nat`, and the `OrbyRingBufferSilo` becomes the structure `Silo`
below.  Fallible operations return their final store state together with
an `Option OrbyError`, mirroring the Rust `&mut self`/`Result` calling
convention where an early error leaves the partially applied mutation in
place.  AOF persistence events are modelled as structured `AofRecord`s
(the byte encoding of `logic/mod.rs` is a fixed-width injective
serialization of these records, one record per op tag).  The in-memory
path of the engine is modelled (`has_mem = true` in the source); the
mirror channel of the legacy `Direct` mode is out of scope of the claims.
-/

namespace Orby

/-! ### The Silo data model (`OrbyRingBufferSilo` of `src/logic/mod.rs`) -/

/-- Error taxonomy of `src/error.rs`; payloads (pool name, counts, reasons)
are dropped since no claim inspects them. -/
inductive OrbyError where
  | laneCountMismatch
  | storageFull
  | configMismatch
  | invalidFormat
  | custom
deriving DecidableEq, Repr

/-- The in-memory store state: `lanes[d][i]` is row `i`'s cell in dimension
`d`; `aofEnabled` models `aof_sender.is_some()`. -/
structure Silo where
  lanes : List (List Nat)
  cursor : Nat
  len : Nat
  capacity : Nat
  laneCount : Nat
  compaction : Bool
  aofEnabled : Bool
deriving DecidableEq, Repr

/-- Cell read `lanes[d][i]`, with `0` (the tombstone sentinel) as default. -/
def cell (s : Silo) (d i : Nat) : Nat := (s.lanes.getD d []).getD i 0

/-- A freshly constructed silo: `D` lanes of `C` zero cells (`OrbyRingBuffer::new`). -/
def emptySilo (C D : Nat) (aof comp : Bool) : Silo :=
  { lanes := List.replicate D (List.replicate C 0)
    cursor := 0, len := 0, capacity := C, laneCount := D
    compaction := comp, aofEnabled := aof }

/-- Structural well-formedness: `|lanes| = D` and every lane has length `C`. -/
def LanesWF (s : Silo) : Prop :=
  s.lanes.length = s.laneCount ∧
    ∀ d < s.laneCount, (s.lanes.getD d []).length = s.capacity

/-- AOF events (`AOF_OP_INSERT = 0x01`, `AOF_OP_PURGE = 0x02`,
`AOF_OP_UPDATE = 0x03`, `AOF_OP_TRUNCATE = 0x04`, `AOF_OP_LANE_BATCH = 0x05`),
carried structurally instead of as the little-endian byte stream. -/
inductive AofRecord where
  | insert (row : List Nat)
  | purge (ix : Nat) (id : Nat)
  | update (ix : Nat) (id : Nat) (row : List Nat)
  | trunc
  | laneBatch (ix : Nat) (values : List Nat)
deriving DecidableEq, Repr

/-! ### Lane-wise helpers -/

/-- Apply `f d lane` to each lane, passing the dimension index starting at `d0`. -/
def mapLanesFrom (f : Nat → List Nat → List Nat) : Nat → List (List Nat) → List (List Nat)
  | _, [] => []
  | d, lane :: rest => f d lane :: mapLanesFrom f (d + 1) rest

/-- Apply `f d lane` to each lane (dimension indices from 0). -/
def mapLanes (f : Nat → List Nat → List Nat) (lanes : List (List Nat)) : List (List Nat) :=
  mapLanesFrom f 0 lanes

/-! ### Sequential writes into a lane (`buffer[start + i] = values[i]`) -/

/-- Write the values one by one at consecutive indices, as the plain loops of
`insert_lane_batch` in `ring.rs` do. -/
def writeSeq (lane : List Nat) (start : Nat) : List Nat → List Nat
  | [] => lane
  | v :: vs => writeSeq (lane.set start v) (start + 1) vs

/-- Wrap-aware range write: the two-branch structure of `insert_lane_batch`
(`ring.rs`): one run if it fits before the end, else a tail run plus a run
restarting at index 0. -/
def writeRange (lane : List Nat) (start cap : Nat) (vs : List Nat) : List Nat :=
  if start + vs.length ≤ cap then
    writeSeq lane start vs
  else
    let lenToEnd := cap - start
    writeSeq (writeSeq lane start (vs.take lenToEnd)) 0 (vs.drop lenToEnd)

/-! ### Ring-buffer mutations (`src/logic/ring.rs`, in-memory path) -/

/-- Result of a mutating call: the final store state (mutations before an
early error are kept, as with `&mut self` in the source), the AOF events
pushed, and the returned error if any. -/
structure RunResult where
  state : Silo
  aof : List AofRecord
  err : Option OrbyError
deriving DecidableEq, Repr

/-- One iteration of the `insert_batch` loop body after the length check:
detect overwrite via `lanes[0][cursor] != 0`, write `r[d]` into every lane
`d < r.len()` at slot `cursor`, bump `len` when not overwriting and below
capacity, advance the cursor. -/
def insertRow (s : Silo) (r : List Nat) : Silo :=
  { s with
    lanes := mapLanes (fun d lane =>
      if d < r.length then lane.set s.cursor (r.getD d 0) else lane) s.lanes
    len := if cell s 0 s.cursor = 0 ∧ s.len < s.capacity then s.len + 1 else s.len
    cursor := (s.cursor + 1) % s.capacity }

/-- `insert_batch`: per row, reject with `LaneCountMismatch` if the row length
differs from the lane count (keeping the already-inserted prefix), else log
an Insert event and apply `insertRow`. -/
def insertBatchRun (s : Silo) : List (List Nat) → RunResult
  | [] => ⟨s, [], none⟩
  | r :: rs =>
    if r.length ≠ s.laneCount then ⟨s, [], some .laneCountMismatch⟩
    else
      let recs := if s.aofEnabled then [AofRecord.insert r] else []
      let res := insertBatchRun (insertRow s r) rs
      ⟨res.state, recs ++ res.aof, res.err⟩

/-- `insert_lane_batch`: guard the lane index (`LaneCountMismatch`) and the
batch size (`StorageFull`), log a LaneBatch event, write the values into the
target lane with wrap-around and zero the same slot range in every other
lane, then set `len = min (len + k) C` and advance the cursor by `k`. -/
def laneBatchRun (s : Silo) (laneIdx : Nat) (values : List Nat) : RunResult :=
  if laneIdx ≥ s.laneCount then ⟨s, [], some .laneCountMismatch⟩
  else if values.length > s.capacity then ⟨s, [], some .storageFull⟩
  else
    let recs := if s.aofEnabled then [AofRecord.laneBatch laneIdx values] else []
    let s' := { s with
      lanes := mapLanes (fun d lane =>
        if d = laneIdx then writeRange lane s.cursor s.capacity values
        else writeRange lane s.cursor s.capacity (List.replicate values.length 0)) s.lanes
      len := min (s.len + values.length) s.capacity
      cursor := (s.cursor + values.length) % s.capacity }
    ⟨s', recs, none⟩

/-- Engine façade `insert_lane_batch` (`engine/api.rs`): empty input returns
without touching the ring logic. -/
def apiLaneBatch (s : Silo) (laneIdx : Nat) (values : List Nat) : RunResult :=
  if values.isEmpty then ⟨s, [], none⟩ else laneBatchRun s laneIdx values

/-- The physical slots of lane `ix` whose cell equals `id` (the scan that
`update_by_id` and `purge_by_id` run before mutating). -/
def matchTargets (s : Silo) (ix id : Nat) : List Nat :=
  (List.range s.capacity).filter (fun i => cell s ix i == id)

/-- Overwrite the entire row at physical slot `i` with `r` (every lane gets
`r[d]`), as the vertical write of `update_by_id`. -/
def overwriteAt (s : Silo) (i : Nat) (r : List Nat) : Silo :=
  { s with lanes := mapLanes (fun d lane => lane.set i (r.getD d 0)) s.lanes }

/-- Result of `update_by_id`: final state, emitted AOF events, and the
`found_any` boolean returned by the call. -/
structure UpdateResult where
  state : Silo
  aof : List AofRecord
  found : Bool
deriving DecidableEq, Repr

/-- `update_by_id`: guards (`id = 0`, row length, lane index) return `false`
unchanged; else overwrite the whole row at every slot of lane `ix` that
equals `id`.  The loop pushes the Update event only on its first iteration
(the `!found_any` guard in the source), so a single event covers the call. -/
def updateByIdRun (s : Silo) (ix id : Nat) (r : List Nat) : UpdateResult :=
  if id = 0 ∨ r.length ≠ s.laneCount then ⟨s, [], false⟩
  else if ix ≥ s.laneCount then ⟨s, [], false⟩
  else if (matchTargets s ix id).isEmpty then ⟨s, [], false⟩
  else
    ⟨(matchTargets s ix id).foldl (fun acc i => overwriteAt acc i r) s,
      if s.aofEnabled then [AofRecord.update ix id r] else [], true⟩

/-- `upsert`: try `update_by_id`; on no match fall through to `insert_batch`
of the single row. -/
def upsertRun (s : Silo) (ix id : Nat) (r : List Nat) : RunResult :=
  if (updateByIdRun s ix id r).found then
    ⟨(updateByIdRun s ix id r).state, (updateByIdRun s ix id r).aof, none⟩
  else
    ⟨(insertBatchRun (updateByIdRun s ix id r).state [r]).state,
      (updateByIdRun s ix id r).aof ++
        (insertBatchRun (updateByIdRun s ix id r).state [r]).aof,
      (insertBatchRun (updateByIdRun s ix id r).state [r]).err⟩

/-- Zero the row at slot `i` and decrement `len` when positive (one
iteration of the `purge_by_id` loop). -/
def zeroRowStep (s : Silo) (i : Nat) : Silo :=
  { s with
    lanes := s.lanes.map (fun lane => lane.set i 0)
    len := if 0 < s.len then s.len - 1 else s.len }

/-- `purge_by_id`: guards return silently; else log one Purge event and zero
the full row at every slot of lane `ix` equal to `id`, decrementing `len`
per hit. -/
def purgeRun (s : Silo) (ix id : Nat) : Silo × List AofRecord :=
  if id = 0 ∨ ix ≥ s.laneCount then (s, [])
  else
    let recs := if s.aofEnabled then [AofRecord.purge ix id] else []
    ((matchTargets s ix id).foldl zeroRowStep s, recs)

/-- `delete`: reject an out-of-range index or a slot whose lane-0 cell is
zero (the code's liveness test); else zero every lane at the slot and
decrement `len`.  With compaction, shift every lane left by one from
`idx+1`, zero the last slot, and set `cursor = len`.  No AOF event is
produced (the source passes `_aof_data` unused). -/
def deleteRun (s : Silo) (idx : Nat) : Silo × Bool :=
  if idx ≥ s.capacity then (s, false)
  else if cell s 0 idx = 0 then (s, false)
  else if s.compaction then
    ({ s with
        lanes :=
          if idx < s.capacity - 1 then
            (s.lanes.map (fun lane => lane.set idx 0)).map
              (fun lane => (lane.take idx ++ lane.drop (idx + 1)) ++ [0])
          else s.lanes.map (fun lane => lane.set idx 0)
        len := if 0 < s.len then s.len - 1 else s.len
        cursor := if 0 < s.len then s.len - 1 else s.len }, true)
  else
    ({ s with
        lanes := s.lanes.map (fun lane => lane.set idx 0)
        len := if 0 < s.len then s.len - 1 else s.len }, true)

/-- One iteration of the re-insert loop inside `truncate`: length-checked
write at the cursor with an unconditional `len` increment (the buffer was
just zeroed, so no overwrite test is needed). -/
def truncInsertLoop (s : Silo) : List (List Nat) → Silo × Option OrbyError
  | [] => (s, none)
  | r :: rs =>
    if r.length ≠ s.laneCount then (s, some .laneCountMismatch)
    else
      truncInsertLoop
        { s with
          lanes := mapLanes (fun d lane =>
            if d < r.length then lane.set s.cursor (r.getD d 0) else lane) s.lanes
          len := s.len + 1
          cursor := (s.cursor + 1) % s.capacity } rs

/-- `truncate`: log a single bare Truncate event (the replacement rows are
not logged), zero every lane, reset `len` and `cursor`, then insert up to
`C` of the provided rows. -/
def truncateRun (s : Silo) (rows : List (List Nat)) : RunResult :=
  ⟨(truncInsertLoop { s with
      lanes := s.lanes.map (fun lane => lane.map (fun _ => 0))
      len := 0, cursor := 0 } (rows.take s.capacity)).1,
    (if s.aofEnabled then [AofRecord.trunc] else []),
    (truncInsertLoop { s with
      lanes := s.lanes.map (fun lane => lane.map (fun _ => 0))
      len := 0, cursor := 0 } (rows.take s.capacity)).2⟩

/-! ### Read-side logic (`query_raw`, `find_indices`, the iterator, `take`) -/

/-- A row is a tombstone when every cell is zero. -/
def rowAllZero (row : List Nat) : Bool := row.all (fun v => v == 0)

/-- Assemble the row at physical slot `i` by gathering one cell per lane. -/
def assembled (s : Silo) (i : Nat) : List Nat :=
  (List.range s.laneCount).map (fun d => cell s d i)

/-- The latest-first physical scan order of `query_raw`: `cursor-1 .. 0`,
then (only when `len = C`) `C-1 .. cursor`. -/
def scanOrder (s : Silo) : List Nat :=
  (List.range s.cursor).reverse ++
    (if s.len = s.capacity then (List.range' s.cursor (s.capacity - s.cursor)).reverse else [])

/-- `query_raw`: filter the scan order by tombstone-skip plus the predicate,
take `limit` matches, and return the assembled rows. -/
def queryRaw (s : Silo) (f : List Nat → Bool) (limit : Nat) : List (List Nat) :=
  (((scanOrder s).filter
      (fun i => !(rowAllZero (assembled s i)) && f (assembled s i))).take limit).map
    (assembled s)

/-- `take` of `engine/api.rs`: `query_raw` with an always-true predicate. -/
def takeLatest (s : Silo) (limit : Nat) : List (List Nat) :=
  queryRaw s (fun _ => true) limit

/-- Insertion into a sorted list; models the ascending sort that
`find_indices` applies before truncating to `limit`. -/
def insSorted (x : Nat) : List Nat → List Nat
  | [] => [x]
  | y :: ys => if x ≤ y then x :: y :: ys else y :: insSorted x ys

/-- Ascending sort by repeated insertion. -/
def sortAsc (l : List Nat) : List Nat := l.foldr insSorted []

/-- Indexed enumeration used to model the iterator adapter in
`find_indices`. -/
def enumIdx : Nat → List Nat → List (Nat × Nat)
  | _, [] => []
  | k, a :: l => (k, a) :: enumIdx (k + 1) l

/-- `find_indices`: logical indices (enumeration positions in the scan
order) of the non-tombstone rows matching the predicate, sorted ascending,
first `limit`. -/
def findIndices (s : Silo) (f : List Nat → Bool) (limit : Nat) : List Nat :=
  (sortAsc ((enumIdx 0 (scanOrder s)).filterMap (fun p =>
    if !(rowAllZero (assembled s p.2)) && f (assembled s p.2) then some p.1
    else none))).take limit

/-- Logical-to-physical index mapping used by `get_at` and the iterator:
`cursor - 1 - i` when `cursor > i`, else `cap + cursor - 1 - i`. -/
def physIdx (s : Silo) (i : Nat) : Nat :=
  if s.cursor > i then s.cursor - 1 - i else s.capacity + s.cursor - 1 - i

/-- The full stream produced by `OrbyIterator` (`engine/iter.rs`, in-memory
path): walk logical indices `0 .. len`, skip all-zero rows, apply the
predicate. -/
def iterRows (s : Silo) (f : List Nat → Bool) : List (List Nat) :=
  (List.range s.len).filterMap (fun i =>
    let row := assembled s (physIdx s i)
    if rowAllZero row then none
    else if f row then some row else none)

/-! ### Operation sequences and AOF replay -/

/-- The mutating façade operations whose effect on the Silo the claims
quantify over. -/
inductive Op where
  | insertB (rows : List (List Nat))
  | laneB (ix : Nat) (values : List Nat)
  | updateB (ix id : Nat) (row : List Nat)
  | upsertB (ix id : Nat) (row : List Nat)
  | deleteB (idx : Nat)
  | purgeB (ix id : Nat)
  | truncB (rows : List (List Nat))
deriving DecidableEq, Repr

/-- The state and AOF events produced by one façade call.  For the fallible
calls (`insert_batch`, `insert_lane_batch`, `upsert`, `purge_all_data`) the
`?` in `engine/api.rs` propagates the error before the channel send, so a
call that errors keeps its partial in-memory mutation but emits no AOF
records at all. -/
def applyOp (s : Silo) : Op → Silo × List AofRecord
  | .insertB rows =>
    ((insertBatchRun s rows).state,
      if (insertBatchRun s rows).err = none then (insertBatchRun s rows).aof else [])
  | .laneB ix vs =>
    ((apiLaneBatch s ix vs).state,
      if (apiLaneBatch s ix vs).err = none then (apiLaneBatch s ix vs).aof else [])
  | .updateB ix id row => ((updateByIdRun s ix id row).state, (updateByIdRun s ix id row).aof)
  | .upsertB ix id row =>
    ((upsertRun s ix id row).state,
      if (upsertRun s ix id row).err = none then (upsertRun s ix id row).aof else [])
  | .deleteB idx => ((deleteRun s idx).1, [])
  | .purgeB ix id => purgeRun s ix id
  | .truncB rows =>
    ((truncateRun s rows).state,
      if (truncateRun s rows).err = none then (truncateRun s rows).aof else [])

/-- Run a sequence of façade calls, concatenating the emitted AOF events in
channel order. -/
def runOps (s : Silo) : List Op → Silo × List AofRecord
  | [] => (s, [])
  | op :: ops =>
    ((runOps (applyOp s op).1 ops).1,
      (applyOp s op).2 ++ (runOps (applyOp s op).1 ops).2)

/-- Re-issue one AOF record through the façade's public operations, as
`replay_aof` (`engine/persistence/aof.rs`) dispatches per op tag. -/
def replayRecord (s : Silo) : AofRecord → Silo
  | .insert row => (insertBatchRun s [row]).state
  | .purge ix id => (purgeRun s ix id).1
  | .update ix id row => (updateByIdRun s ix id row).state
  | .trunc => (truncateRun s []).state
  | .laneBatch ix vs => (apiLaneBatch s ix vs).state

/-- Replay a record stream in order against a silo. -/
def replay (s : Silo) (recs : List AofRecord) : Silo :=
  recs.foldl replayRecord s

/-! ### Vault header validation (`src/engine/persistence/vault.rs`) -/

/-- The bytes of the magic string `ORBY_DATA_V1_LE ` (trailing space). -/
def MAGIC_BYTES : List Nat :=
  [79, 82, 66, 89, 95, 68, 65, 84, 65, 95, 86, 49, 95, 76, 69, 32]

/-- The fields parsed from `header.bin` at offsets 0/16/24/32/40. -/
structure VaultHeader where
  magic : List Nat
  cap : Nat
  hlen : Nat
  hcursor : Nat
  dim : Nat
deriving DecidableEq, Repr

/-- Load lane `d`'s cells from the vault file contents into the in-memory
lane, cell by cell from row 0, as both restore paths do after validation. -/
def loadLanes (s : Silo) (laneData : List (List Nat)) : Silo :=
  { s with lanes := mapLanes (fun d lane =>
      if d < s.laneCount then writeSeq lane 0 (laneData.getD d []) else lane) s.lanes }

/-- `restore_from_vault`: magic check (`InvalidFormat`), then capacity/lane
count against the configured values (`LaneCountMismatch`), then the per-lane
file-size check (a `Custom` error), and only then mutate `len`, `cursor`
and the lanes.  `laneSizes[d]` stands for the on-disk byte size of
`lane_d.bin`. -/
def restoreFromVault (s : Silo) (hdr : VaultHeader) (laneSizes : List Nat)
    (laneData : List (List Nat)) : Silo × Option OrbyError :=
  if hdr.magic ≠ MAGIC_BYTES then (s, some .invalidFormat)
  else if hdr.cap ≠ s.capacity ∨ hdr.dim ≠ s.laneCount then
    (s, some .laneCountMismatch)
  else if (List.range hdr.dim).any (fun i => laneSizes.getD i 0 != hdr.cap * 16) then
    (s, some .custom)
  else
    (loadLanes { s with len := hdr.hlen, cursor := hdr.hcursor } laneData, none)

/-- `validate_and_load_vault` (the autoload path): a missing header, a bad
magic, a capacity/lane-count mismatch, or (in strict mode) a lane-file size
mismatch all fail with `ConfigMismatch` before any lane data is loaded;
otherwise `len`, `cursor` and the lanes are set from the vault. -/
def validateAndLoadVault (s : Silo) (strict headerExists : Bool) (hdr : VaultHeader)
    (laneSizes : List Nat) (laneData : List (List Nat)) : Silo × Option OrbyError :=
  if !headerExists then (s, some .configMismatch)
  else if hdr.magic ≠ MAGIC_BYTES then (s, some .configMismatch)
  else if hdr.cap ≠ s.capacity ∨ hdr.dim ≠ s.laneCount then (s, some .configMismatch)
  else if strict && (List.range hdr.dim).any (fun i => laneSizes.getD i 0 != hdr.cap * 16) then
    (s, some .configMismatch)
  else
    (loadLanes { s with len := hdr.hlen, cursor := hdr.hcursor } laneData, none)

/-! ## C2: wrap-around and latest-first `take`

The state reached after inserting `t` rows into an initially empty silo is
characterized slot by slot: physical slot `i` holds the cells of the last
row written there (`writerIdx`), `len = min t C` and `cursor = t mod C`. -/

/-- Index (into the insertion sequence) of the last row written to physical
slot `i` after `t` single-row inserts into an empty ring of capacity `C`. -/
def writerIdx (t C i : Nat) : Option Nat :=
  if i < t % C then some (t - t % C + i)
  else if i < min t C then some (t + i - t % C - C)
  else none

/-- Invariant after inserting the first `t` of the rows `rs` into an empty
silo of capacity `C` and lane count `D`. -/
def InsState (C D : Nat) (rs : List (List Nat)) (t : Nat) (s : Silo) : Prop :=
  s.capacity = C ∧ s.laneCount = D ∧ s.lanes.length = D ∧
  (∀ d < D, (s.lanes.getD d []).length = C) ∧
  s.cursor = t % C ∧ s.len = min t C ∧
  (∀ d < D, ∀ i < C,
    cell s d i = match writerIdx t C i with
      | none => 0
      | some w => (rs.getD w []).getD d 0)

/-! ## C3: `len` versus the number of live rows

A physical slot is live when some lane holds a non-zero cell there.  The
claim says `len` always equals the number of live slots; the counterexample
below refutes equality, and the amended upper bound `liveCount ≤ len` is
proved for every operation sequence. -/

/-- Slot `i` is live: some dimension's cell there is non-zero. -/
def liveB (s : Silo) (i : Nat) : Bool :=
  (List.range s.laneCount).any (fun d => cell s d i != 0)

/-- Number of live slots among the `C` physical slots. -/
def liveCount (s : Silo) : Nat :=
  ((Finset.range s.capacity).filter (fun i => liveB s i = true)).card

/-- The operational invariant: `len` bounds the live count, stays within
capacity, the cursor is in range, and the lanes are well-formed. -/
def Inv (s : Silo) : Prop :=
  liveCount s ≤ s.len ∧ s.len ≤ s.capacity ∧ s.cursor < s.capacity ∧ LanesWF s

/-! ## C5: AOF replay equivalence

The claim quantifies over insert, update, purge, truncate and lane-batch
operations.  A truncate carrying replacement rows breaks replay (the AOF
holds only a bare Truncate record), so the amended statement restricts
truncates to empty replacement lists; replay is then exact. -/

/-- Operations covered by the replay claim; a truncate qualifies only with
no replacement rows (the counterexample shows why). -/
def AllowedC5 : Op → Bool
  | .insertB _ => true
  | .laneB _ _ => true
  | .updateB _ _ _ => true
  | .purgeB _ _ => true
  | .truncB rows => rows.isEmpty
  | _ => false

/-- The error returned by one façade call (none for the infallible ones). -/
def opErr (s : Silo) : Op → Option OrbyError
  | .insertB rows => (insertBatchRun s rows).err
  | .laneB ix vs => (apiLaneBatch s ix vs).err
  | .updateB _ _ _ => none
  | .upsertB ix id row => (upsertRun s ix id row).err
  | .deleteB _ => none
  | .purgeB _ _ => none
  | .truncB rows => (truncateRun s rows).err

/-- Every call of the sequence completes without error.  A failing call
keeps its partial mutation in memory but emits no AOF records (the `?` in
`engine/api.rs` precedes the channel send), so replay equivalence can only
be claimed of error-free runs. -/
def runOk (s : Silo) : List Op → Bool
  | [] => true
  | op :: ops => (opErr s op).isNone && runOk (applyOp s op).1 ops

/-! ### Basic list access lemmas used throughout -/

variable {α : Type}

/-- getD after set at the same (in-bounds) index returns the new value. -/
theorem getD_set_self {l : List α} {i : Nat} {v w : α} (h : i < l.length) :
    (l.set i v).getD i w = v := by
  induction l generalizing i with
  | nil => simp at h
  | cons a t ih =>
    cases i with
    | zero => rfl
    | succ j => simpa using ih (by simpa using h)

/-- getD after set at a different index is unchanged. -/
theorem getD_set_ne {l : List α} {i j : Nat} {v w : α} (h : i ≠ j) :
    (l.set i v).getD j w = l.getD j w := by
  induction l generalizing i j with
  | nil => simp
  | cons a t ih =>
    cases i with
    | zero =>
      cases j with
      | zero => exact absurd rfl h
      | succ j' => rfl
    | succ i' =>
      cases j with
      | zero => rfl
      | succ j' => simpa using ih (fun he => h (by simp [he]))

/-- getD of a list beyond its length is the default. -/
theorem getD_of_length_le {l : List α} {j : Nat} {w : α} (h : l.length ≤ j) :
    l.getD j w = w := by
  induction l generalizing j with
  | nil => simp
  | cons a t ih =>
    cases j with
    | zero => simp at h
    | succ j' => simpa using ih (by simpa using h)

/-- getD into a take: in range it reads the original list. -/
theorem getD_take (l : List α) (n j : Nat) (w : α) (h : j < n) :
    (l.take n).getD j w = l.getD j w := by
  induction l generalizing n j with
  | nil => simp
  | cons a t ih =>
    cases n with
    | zero => omega
    | succ n' =>
      cases j with
      | zero => rfl
      | succ j' => simpa using ih n' j' (by omega)

/-- getD into a drop shifts the index. -/
theorem getD_drop (l : List α) (n j : Nat) (w : α) :
    (l.drop n).getD j w = l.getD (n + j) w := by
  induction l generalizing n j with
  | nil => simp
  | cons a t ih =>
    cases n with
    | zero => simp
    | succ n' =>
      have : n' + 1 + j = n' + j + 1 := by omega
      rw [this]
      simpa using ih n' j

/-- getD at an in-bounds index equals getElem. -/
theorem getD_eq_getElem' {l : List α} {j : Nat} {w : α} (h : j < l.length) :
    l.getD j w = l[j] := by
  induction l generalizing j with
  | nil => simp at h
  | cons a t ih =>
    cases j with
    | zero => rfl
    | succ j' => simpa using ih (by simpa using h)

/-- getD at an in-bounds index yields a member of the list. -/
theorem getD_mem {l : List α} {j : Nat} {w : α} (h : j < l.length) :
    l.getD j w ∈ l := by
  rw [getD_eq_getElem' h]
  exact List.getElem_mem h

/-- getD into an append: left segment. -/
theorem getD_append_left {l l' : List α} {j : Nat} {w : α} (h : j < l.length) :
    (l ++ l').getD j w = l.getD j w := by
  induction l generalizing j with
  | nil => simp at h
  | cons a t ih =>
    cases j with
    | zero => rfl
    | succ j' => simpa using ih (by simpa using h)

/-- getD into an append: right segment. -/
theorem getD_append_right (l l' : List α) (j : Nat) (w : α) (h : l.length ≤ j) :
    (l ++ l').getD j w = l'.getD (j - l.length) w := by
  induction l generalizing j with
  | nil => simp
  | cons a t ih =>
    cases j with
    | zero => simp at h
    | succ j' =>
      have := ih j' (by simpa using h)
      simpa using this

/-- getD of a replicate is the replicated value (or the default past the end). -/
theorem getD_replicate_zero (n j : Nat) :
    (List.replicate n (0 : Nat)).getD j 0 = 0 := by
  induction n generalizing j with
  | zero => simp
  | succ n' ih =>
    cases j with
    | zero => rfl
    | succ j' => simpa using ih j'

/-- getD of a replicate at an in-range index. -/
theorem getD_replicate_of_lt {x w : α} {n j : Nat} (h : j < n) :
    (List.replicate n x).getD j w = x := by
  induction n generalizing j with
  | zero => omega
  | succ n' ih =>
    cases j with
    | zero => rfl
    | succ j' =>
      show (List.replicate n' x).getD j' w = x
      exact ih (Nat.lt_of_succ_lt_succ h)

/-- getD distributes over a constant-zero map. -/
theorem getD_map_zero (l : List Nat) (j : Nat) :
    (l.map (fun _ => (0 : Nat))).getD j 0 = 0 := by
  induction l generalizing j with
  | nil => simp
  | cons a t ih => cases j with
    | zero => rfl
    | succ j' => simpa using ih j'

/-- getD through a plain map over the lane list. -/
theorem getD_map_lanes (g : List Nat → List Nat) (lanes : List (List Nat)) (d : Nat) :
    (lanes.map g).getD d [] = if d < lanes.length then g (lanes.getD d []) else [] := by
  induction lanes generalizing d with
  | nil => simp
  | cons lane rest ih =>
    cases d with
    | zero => simp
    | succ d' =>
      by_cases h : d' < rest.length
      · simpa [h] using ih d'
      · simpa [h] using ih d'

/-- A suffix of a list, read through getD. -/
theorem drop_eq_cons_getD {l : List α} {t : Nat} {r : α} {rest : List α} {w : α}
    (h : l.drop t = r :: rest) : l.getD t w = r ∧ l.drop (t + 1) = rest := by
  constructor
  · have h0 : (l.drop t).getD 0 w = r := by rw [h]; rfl
    rw [getD_drop] at h0
    simpa using h0
  · have := List.tail_drop l t
    rw [h] at this
    exact this.symm

theorem length_mapLanesFrom (f : Nat → List Nat → List Nat) (d0 : Nat)
    (lanes : List (List Nat)) : (mapLanesFrom f d0 lanes).length = lanes.length := by
  induction lanes generalizing d0 with
  | nil => rfl
  | cons lane rest ih => simp [mapLanesFrom, ih]

theorem length_mapLanes (f : Nat → List Nat → List Nat) (lanes : List (List Nat)) :
    (mapLanes f lanes).length = lanes.length := length_mapLanesFrom f 0 lanes

theorem getD_mapLanesFrom (f : Nat → List Nat → List Nat) (d0 : Nat)
    (lanes : List (List Nat)) (d : Nat) :
    (mapLanesFrom f d0 lanes).getD d [] =
      if d < lanes.length then f (d0 + d) (lanes.getD d []) else [] := by
  induction lanes generalizing d0 d with
  | nil => simp [mapLanesFrom]
  | cons lane rest ih =>
    cases d with
    | zero => simp [mapLanesFrom]
    | succ d' =>
      have := ih (d0 + 1) d'
      simp only [mapLanesFrom, List.getD_cons_succ, List.length_cons]
      rw [this]
      have harith : d0 + 1 + d' = d0 + (d' + 1) := by omega
      by_cases h : d' < rest.length
      · simp [h, Nat.succ_lt_succ h, harith]
      · simp [h, fun hh => h (Nat.lt_of_succ_lt_succ hh)]

theorem getD_mapLanes (f : Nat → List Nat → List Nat) (lanes : List (List Nat)) (d : Nat) :
    (mapLanes f lanes).getD d [] =
      if d < lanes.length then f d (lanes.getD d []) else [] := by
  have := getD_mapLanesFrom f 0 lanes d
  simpa [mapLanes] using this

theorem length_writeSeq (lane : List Nat) (start : Nat) (vs : List Nat) :
    (writeSeq lane start vs).length = lane.length := by
  induction vs generalizing lane start with
  | nil => rfl
  | cons v vs ih => simp [writeSeq, ih]

theorem getD_writeSeq_frame (lane : List Nat) (start : Nat) (vs : List Nat) (j : Nat)
    (h : j < start ∨ start + vs.length ≤ j) :
    (writeSeq lane start vs).getD j 0 = lane.getD j 0 := by
  induction vs generalizing lane start with
  | nil => rfl
  | cons v vs ih =>
    have hne : start ≠ j := by
      rcases h with h | h
      · omega
      · simp only [List.length_cons] at h; omega
    have hrec : j < start + 1 ∨ start + 1 + vs.length ≤ j := by
      rcases h with h | h
      · exact Or.inl (by omega)
      · simp only [List.length_cons] at h; exact Or.inr (by omega)
    rw [writeSeq, ih _ _ hrec, getD_set_ne hne]

theorem getD_writeSeq_at (lane : List Nat) (start : Nat) (vs : List Nat) (i : Nat)
    (hi : i < vs.length) (hb : start + vs.length ≤ lane.length) :
    (writeSeq lane start vs).getD (start + i) 0 = vs.getD i 0 := by
  induction vs generalizing lane start i with
  | nil => simp at hi
  | cons v vs ih =>
    cases i with
    | zero =>
      rw [writeSeq, getD_writeSeq_frame _ _ _ _ (Or.inl (by omega))]
      exact getD_set_self (by simp only [List.length_cons] at hb; omega)
    | succ i' =>
      have h1 : start + (i' + 1) = (start + 1) + i' := by omega
      rw [writeSeq, h1, ih _ _ _ (by simpa using hi)
        (by simp only [List.length_cons] at hb; simp; omega)]
      rfl

theorem length_writeRange (lane : List Nat) (start cap : Nat) (vs : List Nat) :
    (writeRange lane start cap vs).length = lane.length := by
  unfold writeRange
  split <;> simp [length_writeSeq]

/-- Positions not of the form `(start + i) % cap` for `i < |vs|` are untouched. -/
theorem getD_writeRange_frame (lane : List Nat) (start cap : Nat) (vs : List Nat) (j : Nat)
    (hcap : lane.length = cap) (hstart : start < cap) (hvs : vs.length ≤ cap)
    (h : ∀ i < vs.length, (start + i) % cap ≠ j) :
    (writeRange lane start cap vs).getD j 0 = lane.getD j 0 := by
  by_cases hjcap : j < cap
  · unfold writeRange
    split
    · -- no wrap: all writes land in [start, start + |vs|)
      apply getD_writeSeq_frame
      by_contra hcon
      push_neg at hcon
      obtain ⟨h1, h2⟩ := hcon
      exact h (j - start) (by omega) (by rw [Nat.mod_eq_of_lt (by omega)]; omega)
    · -- wrap: writes land in [start, cap) and [0, |vs| - (cap - start))
      rename_i hnofit
      push_neg at hnofit
      rw [getD_writeSeq_frame, getD_writeSeq_frame]
      · -- frame for the tail run starting at `start`
        by_contra hcon
        push_neg at hcon
        obtain ⟨h1, h2⟩ := hcon
        have hlen : (vs.take (cap - start)).length = cap - start := by
          simp; omega
        rw [hlen] at h2
        exact h (j - start) (by omega) (by rw [Nat.mod_eq_of_lt (by omega)]; omega)
      · -- frame for the wrapped run starting at 0
        by_contra hcon
        push_neg at hcon
        obtain ⟨h1, h2⟩ := hcon
        have hlen : (vs.drop (cap - start)).length = vs.length - (cap - start) := by simp
        rw [hlen] at h2
        refine h (cap - start + j) (by omega) ?_
        have : start + (cap - start + j) = cap + j := by omega
        rw [this, Nat.add_mod_left, Nat.mod_eq_of_lt hjcap]
  · rw [getD_of_length_le (by rw [length_writeRange]; omega),
      getD_of_length_le (by omega)]

/-- The `i`-th value lands at physical slot `(start + i) % cap`. -/
theorem getD_writeRange_at (lane : List Nat) (start cap : Nat) (vs : List Nat) (i : Nat)
    (hcap : lane.length = cap) (hstart : start < cap) (hvs : vs.length ≤ cap)
    (hi : i < vs.length) :
    (writeRange lane start cap vs).getD ((start + i) % cap) 0 = vs.getD i 0 := by
  unfold writeRange
  split
  · rename_i hfit
    rw [Nat.mod_eq_of_lt (by omega)]
    exact getD_writeSeq_at _ _ _ _ hi (by omega)
  · rename_i hnofit
    push_neg at hnofit
    by_cases hitail : i < cap - start
    · -- the value sits in the tail run; the wrapped run does not touch it
      rw [Nat.mod_eq_of_lt (by omega)]
      have hlen1 : (vs.take (cap - start)).length = cap - start := by simp; omega
      rw [getD_writeSeq_frame _ _ _ _ (by simp; omega),
        getD_writeSeq_at _ _ _ _ (by omega) (by rw [hlen1]; omega)]
      · exact getD_take _ _ _ _ hitail
    · -- the value sits in the wrapped run at index `i - (cap - start)`
      push_neg at hitail
      have hmod : (start + i) % cap = i - (cap - start) := by
        have h1 : start + i = cap + (i - (cap - start)) := by omega
        rw [h1, Nat.add_mod_left, Nat.mod_eq_of_lt (by omega)]
      rw [hmod]
      have h0 : i - (cap - start) = 0 + (i - (cap - start)) := by omega
      rw [h0, getD_writeSeq_at]
      · rw [getD_drop]
        congr 1
        omega
      · simp; omega
      · rw [length_writeSeq]; simp; omega

/-! ### Cell-level characterization of the mutations -/

theorem cell_insertRow_ne (s : Silo) (r : List Nat) (d i : Nat) (hi : i ≠ s.cursor) :
    cell (insertRow s r) d i = cell s d i := by
  show ((mapLanes _ s.lanes).getD d []).getD i 0 = (s.lanes.getD d []).getD i 0
  rw [getD_mapLanes]
  by_cases hd : d < s.lanes.length
  · rw [if_pos hd]
    by_cases hdr : d < r.length
    · rw [if_pos hdr, getD_set_ne (fun h => hi h.symm)]
    · rw [if_neg hdr]
  · rw [if_neg hd, getD_of_length_le (Nat.le_of_not_lt hd)]

theorem cell_insertRow_at (s : Silo) (r : List Nat) (d : Nat)
    (hwf : LanesWF s) (hcur : s.cursor < s.capacity)
    (hd : d < s.laneCount) (hdr : d < r.length) :
    cell (insertRow s r) d s.cursor = r.getD d 0 := by
  obtain ⟨hlen, hlane⟩ := hwf
  show ((mapLanes _ s.lanes).getD d []).getD _ 0 = r.getD d 0
  rw [getD_mapLanes, if_pos (by omega), if_pos hdr]
  exact getD_set_self (by rw [hlane d hd]; exact hcur)

theorem insertRow_len (s : Silo) (r : List Nat) :
    (insertRow s r).len =
      if cell s 0 s.cursor = 0 ∧ s.len < s.capacity then s.len + 1 else s.len := rfl

theorem insertRow_cursor (s : Silo) (r : List Nat) :
    (insertRow s r).cursor = (s.cursor + 1) % s.capacity := rfl

theorem lanesWF_insertRow (s : Silo) (r : List Nat) (hwf : LanesWF s) :
    LanesWF (insertRow s r) := by
  obtain ⟨hlen, hlane⟩ := hwf
  refine ⟨by simp [insertRow, length_mapLanes, hlen], fun d hd => ?_⟩
  have hd' : d < s.laneCount := hd
  show ((mapLanes _ s.lanes).getD d []).length = s.capacity
  rw [getD_mapLanes, if_pos (by omega)]
  by_cases hdr : d < r.length
  · rw [if_pos hdr, List.length_set]
    exact hlane d hd'
  · rw [if_neg hdr]
    exact hlane d hd'

/-- The freshly built silo is well-formed. -/
theorem lanesWF_empty (C D : Nat) (aof comp : Bool) : LanesWF (emptySilo C D aof comp) := by
  refine ⟨by simp [emptySilo], fun d hd => ?_⟩
  have hd' : d < D := hd
  show ((List.replicate D (List.replicate C 0)).getD d []).length = C
  rw [getD_replicate_of_lt hd']
  simp

/-! ## C1: per-row semantics of `insert_batch` -/

/-- C1: for every `insert_batch` call on a ring-buffer Silo and every input
row `r`: a row whose length differs from the configured lane count `D` makes
the call fail with `LaneCountMismatch`; otherwise the row's cells are
written into every lane at the physical slot `cursor`, `len` increases by
one exactly when the slot was not a live overwrite target
(`lanes[0][cursor] = 0` before the write) and `len < C`, the cursor
advances to `(cursor + 1) mod C`, and the call continues with the remaining
rows from the updated state. -/
theorem insert_batch_row_semantics (s : Silo) (r : List Nat) (rest : List (List Nat))
    (hwf : LanesWF s) (hcur : s.cursor < s.capacity) :
    (r.length ≠ s.laneCount →
      insertBatchRun s (r :: rest) = ⟨s, [], some .laneCountMismatch⟩) ∧
    (r.length = s.laneCount →
      (insertBatchRun s (r :: rest)).state = (insertBatchRun (insertRow s r) rest).state ∧
      (∀ d < s.laneCount, cell (insertRow s r) d s.cursor = r.getD d 0) ∧
      (insertRow s r).len =
        (if cell s 0 s.cursor = 0 ∧ s.len < s.capacity then s.len + 1 else s.len) ∧
      (insertRow s r).cursor = (s.cursor + 1) % s.capacity) := by
  constructor
  · intro hne
    simp [insertBatchRun, hne]
  · intro heq
    refine ⟨by simp [insertBatchRun, heq], fun d hd => ?_, rfl, rfl⟩
    exact cell_insertRow_at s r d hwf hcur hd (by omega)

/-- Witness for C1 at a concrete store: one mismatching row fails, and a
matching row is written with the stated `len`/`cursor` updates. -/
theorem insert_batch_row_semantics_witness :
    (insertBatchRun (emptySilo 3 2 false false) [[7]] =
        ⟨emptySilo 3 2 false false, [], some .laneCountMismatch⟩) ∧
      cell (insertRow (emptySilo 3 2 false false) [7, 8]) 1 0 = 8 := by
  have h := insert_batch_row_semantics (emptySilo 3 2 false false) [[7]].head! []
    (lanesWF_empty 3 2 false false) (by decide)
  have h2 := insert_batch_row_semantics (emptySilo 3 2 false false) [7, 8] []
    (lanesWF_empty 3 2 false false) (by decide)
  exact ⟨h.1 (by decide), (h2.2 (by decide)).2.1 1 (by decide)⟩

/-! ## C6: semantics of `insert_lane_batch` -/

/-- C6: for every `insert_lane_batch(d*, values)` call with `d* < D` and
`k = |values| ≥ 1`: if `k > C` the call fails with `StorageFull` leaving the
state unchanged; otherwise the `k` values are written into lane `d*` at
slots `cursor .. cursor+k` with wrap-around, the same slot range in every
other lane is set to zero, `len` becomes `min (len + k) C`, and the cursor
advances to `(cursor + k) mod C`. -/
theorem insert_lane_batch_semantics (s : Silo) (dstar : Nat) (values : List Nat)
    (hwf : LanesWF s) (hcur : s.cursor < s.capacity)
    (hd : dstar < s.laneCount) (hk : 1 ≤ values.length) :
    (s.capacity < values.length →
      laneBatchRun s dstar values = ⟨s, [], some .storageFull⟩) ∧
    (values.length ≤ s.capacity →
      (laneBatchRun s dstar values).err = none ∧
      (∀ i < values.length,
        cell (laneBatchRun s dstar values).state dstar ((s.cursor + i) % s.capacity) =
          values.getD i 0) ∧
      (∀ d < s.laneCount, d ≠ dstar → ∀ i < values.length,
        cell (laneBatchRun s dstar values).state d ((s.cursor + i) % s.capacity) = 0) ∧
      (laneBatchRun s dstar values).state.len = min (s.len + values.length) s.capacity ∧
      (laneBatchRun s dstar values).state.cursor =
        (s.cursor + values.length) % s.capacity) := by
  obtain ⟨hlen, hlane⟩ := hwf
  constructor
  · intro hbig
    unfold laneBatchRun
    rw [if_neg (by omega), if_pos (by omega)]
  · intro hfit
    unfold laneBatchRun
    rw [if_neg (by omega), if_neg (by omega)]
    refine ⟨rfl, fun i hi => ?_, fun d hdlt hne i hi => ?_, rfl, rfl⟩
    · show ((mapLanes _ s.lanes).getD dstar []).getD _ 0 = _
      rw [getD_mapLanes, if_pos (by omega), if_pos rfl]
      exact getD_writeRange_at _ _ _ _ _ (hlane dstar hd) hcur hfit hi
    · show ((mapLanes _ s.lanes).getD d []).getD _ 0 = _
      rw [getD_mapLanes, if_pos (by omega), if_neg hne]
      rw [getD_writeRange_at _ _ _ _ _ (hlane d hdlt) hcur (by simpa using hfit)
        (by simpa using hi)]
      exact getD_replicate_zero _ _

/-- Witness for C6: the spec's scenario 4 shape in miniature (`C = 4`,
`D = 3`, two values into lane 1), plus the `StorageFull` branch. -/
theorem insert_lane_batch_semantics_witness :
    (laneBatchRun (emptySilo 1 3 false false) 1 [5, 6] =
      ⟨emptySilo 1 3 false false, [], some .storageFull⟩) ∧
    cell (laneBatchRun (emptySilo 4 3 false false) 1 [5, 6]).state 1 1 = 6 ∧
    cell (laneBatchRun (emptySilo 4 3 false false) 1 [5, 6]).state 0 1 = 0 := by
  have h1 := insert_lane_batch_semantics (emptySilo 1 3 false false) 1 [5, 6]
    (lanesWF_empty 1 3 false false) (by decide) (by decide) (by decide)
  have h2 := insert_lane_batch_semantics (emptySilo 4 3 false false) 1 [5, 6]
    (lanesWF_empty 4 3 false false) (by decide) (by decide) (by decide)
  refine ⟨h1.1 (by decide), ?_, ?_⟩
  · have := (h2.2 (by decide)).2.1 1 (by decide)
    simpa using this
  · have := (h2.2 (by decide)).2.2.1 0 (by decide) (by decide) 1 (by decide)
    simpa using this

/-! ## C4 / C10: `update_by_id` -/

theorem cell_overwriteAt_ne (s : Silo) (t : Nat) (r : List Nat) (d i : Nat)
    (hi : i ≠ t) : cell (overwriteAt s t r) d i = cell s d i := by
  show ((mapLanes _ s.lanes).getD d []).getD i 0 = (s.lanes.getD d []).getD i 0
  rw [getD_mapLanes]
  by_cases hd : d < s.lanes.length
  · rw [if_pos hd, getD_set_ne (fun h => hi h.symm)]
  · rw [if_neg hd, getD_of_length_le (Nat.le_of_not_lt hd)]

theorem cell_overwriteAt_self (s : Silo) (t : Nat) (r : List Nat) (d : Nat)
    (hd : d < s.lanes.length) (ht : t < (s.lanes.getD d []).length) :
    cell (overwriteAt s t r) d t = r.getD d 0 := by
  show ((mapLanes _ s.lanes).getD d []).getD t 0 = r.getD d 0
  rw [getD_mapLanes, if_pos hd]
  exact getD_set_self ht

theorem overwriteAt_meta (s : Silo) (t : Nat) (r : List Nat) :
    (overwriteAt s t r).cursor = s.cursor ∧ (overwriteAt s t r).len = s.len ∧
      (overwriteAt s t r).capacity = s.capacity ∧
      (overwriteAt s t r).laneCount = s.laneCount ∧
      (overwriteAt s t r).lanes.length = s.lanes.length ∧
      (overwriteAt s t r).aofEnabled = s.aofEnabled ∧
      (overwriteAt s t r).compaction = s.compaction :=
  ⟨rfl, rfl, rfl, rfl, length_mapLanes _ _, rfl, rfl⟩

theorem lanesWF_overwriteAt (s : Silo) (t : Nat) (r : List Nat) (hwf : LanesWF s) :
    LanesWF (overwriteAt s t r) := by
  obtain ⟨hlen, hlane⟩ := hwf
  refine ⟨by simp [overwriteAt, length_mapLanes, hlen], fun d hd => ?_⟩
  have hd' : d < s.laneCount := hd
  show ((mapLanes _ s.lanes).getD d []).length = s.capacity
  rw [getD_mapLanes, if_pos (by omega), List.length_set]
  exact hlane d hd'

/-- The overwrite fold leaves cursor and len untouched. -/
theorem foldOverwrite_meta (r : List Nat) (ts : List Nat) (s : Silo) :
    (ts.foldl (fun acc i => overwriteAt acc i r) s).cursor = s.cursor ∧
      (ts.foldl (fun acc i => overwriteAt acc i r) s).len = s.len := by
  induction ts generalizing s with
  | nil => exact ⟨rfl, rfl⟩
  | cons t ts ih => exact (ih (overwriteAt s t r))

/-- Slots not in the target list keep all their cells through the fold. -/
theorem foldOverwrite_frame (r : List Nat) (ts : List Nat) (s : Silo) (i : Nat)
    (hi : i ∉ ts) : ∀ d, cell (ts.foldl (fun acc j => overwriteAt acc j r) s) d i =
      cell s d i := by
  induction ts generalizing s with
  | nil => intro d; rfl
  | cons t ts ih =>
    intro d
    have hne : i ≠ t := fun h => hi (h ▸ List.mem_cons_self t ts)
    have hrest : i ∉ ts := fun h => hi (List.mem_cons_of_mem t h)
    rw [List.foldl_cons, ih (overwriteAt s t r) hrest d, cell_overwriteAt_ne _ _ _ _ _ hne]

/-- A slot in the (Nodup) target list ends carrying the new row. -/
theorem foldOverwrite_at (r : List Nat) (ts : List Nat) (s : Silo) (i : Nat)
    (hwf : LanesWF s) (hnd : ts.Nodup) (hts : i ∈ ts) (hic : i < s.capacity) :
    ∀ d < s.laneCount,
      cell (ts.foldl (fun acc j => overwriteAt acc j r) s) d i = r.getD d 0 := by
  induction ts generalizing s with
  | nil => cases hts
  | cons t ts ih =>
    intro d hd
    rcases List.mem_cons.mp hts with heq | hmem
    · subst heq
      have hni : i ∉ ts := (List.nodup_cons.mp hnd).1
      rw [List.foldl_cons, foldOverwrite_frame r ts _ i hni d]
      exact cell_overwriteAt_self s i r d (by have h1 := hwf.1; omega)
        (by rw [hwf.2 d hd]; exact hic)
    · rw [List.foldl_cons]
      exact ih (overwriteAt s t r) (lanesWF_overwriteAt s t r hwf)
        (List.nodup_cons.mp hnd).2 hmem hic d hd

theorem matchTargets_nodup (s : Silo) (ix id : Nat) : (matchTargets s ix id).Nodup :=
  List.Nodup.filter _ (List.nodup_range s.capacity)

theorem mem_matchTargets (s : Silo) (ix id i : Nat) :
    i ∈ matchTargets s ix id ↔ i < s.capacity ∧ cell s ix i = id := by
  unfold matchTargets
  rw [List.mem_filter, List.mem_range]
  constructor
  · rintro ⟨h1, h2⟩
    exact ⟨h1, by simpa using h2⟩
  · rintro ⟨h1, h2⟩
    exact ⟨h1, by simpa using h2⟩

/-- C10: for every `update_by_id` call, matched or not, `cursor` and `len`
are unchanged, and every physical slot whose cell in the searched lane `ix`
did not equal `id` before the call holds exactly the same cells in every
dimension afterwards: only slots matching `id` are modified. -/
theorem update_by_id_frame (s : Silo) (ix id : Nat) (r : List Nat) :
    (updateByIdRun s ix id r).state.cursor = s.cursor ∧
    (updateByIdRun s ix id r).state.len = s.len ∧
    (∀ i, cell s ix i ≠ id → ∀ d,
      cell (updateByIdRun s ix id r).state d i = cell s d i) := by
  unfold updateByIdRun
  split
  · exact ⟨rfl, rfl, fun i _ d => rfl⟩
  · split
    · exact ⟨rfl, rfl, fun i _ d => rfl⟩
    · split
      · exact ⟨rfl, rfl, fun i _ d => rfl⟩
      · refine ⟨(foldOverwrite_meta r _ s).1, (foldOverwrite_meta r _ s).2,
          fun i hne d => ?_⟩
        refine foldOverwrite_frame r _ s i (fun hmem => ?_) d
        exact hne ((mem_matchTargets s ix id i).mp hmem).2

/-- Witness for C10: concrete non-matching slot survives an update untouched. -/
theorem update_by_id_frame_witness :
    (updateByIdRun ⟨[[5, 9]], 0, 2, 2, 1, false, false⟩ 0 5 [7]).state.cursor = 0 ∧
    cell (updateByIdRun ⟨[[5, 9]], 0, 2, 2, 1, false, false⟩ 0 5 [7]).state 0 1 = 9 := by
  have h := update_by_id_frame ⟨[[5, 9]], 0, 2, 2, 1, false, false⟩ 0 5 [7]
  refine ⟨h.1, ?_⟩
  rw [h.2.2 1 (by decide) 0]
  rfl

/-- C4 counterexample: with two slots of lane 0 equal to the id, the call
emits a single Update event, not one per matched slot as the claim states. -/
theorem update_by_id_event_count_cex :
    (matchTargets ⟨[[5, 5]], 0, 2, 2, 1, false, true⟩ 0 5).length = 2 ∧
    (updateByIdRun ⟨[[5, 5]], 0, 2, 2, 1, false, true⟩ 0 5 [7]).aof.length = 1 := by
  constructor <;> rfl

/-- C4 (amended): for every `update_by_id(ix, id, row)` call with `id ≠ 0`,
`ix < D` and `|row| = D`: every physical slot whose cell in lane `ix`
equals `id` has its entire row overwritten with the new row, the call
returns true iff at least one slot matched, and, when AOF is enabled, a
single Update event (op 0x03, carrying the same `id`) is emitted for the
whole call when at least one slot matched, none otherwise. -/
theorem update_by_id_semantics (s : Silo) (ix id : Nat) (r : List Nat)
    (hwf : LanesWF s) (hid : id ≠ 0) (hix : ix < s.laneCount)
    (hr : r.length = s.laneCount) (haof : s.aofEnabled = true) :
    ((updateByIdRun s ix id r).found = true ↔
      ∃ i, i < s.capacity ∧ cell s ix i = id) ∧
    (∀ i, i < s.capacity → cell s ix i = id → ∀ d < s.laneCount,
      cell (updateByIdRun s ix id r).state d i = r.getD d 0) ∧
    (updateByIdRun s ix id r).aof =
      (if (updateByIdRun s ix id r).found then [AofRecord.update ix id r] else []) := by
  have hmain : ¬ (id = 0 ∨ r.length ≠ s.laneCount) := by
    push_neg
    exact ⟨hid, hr⟩
  unfold updateByIdRun
  rw [if_neg hmain, if_neg (by omega)]
  by_cases hempty : (matchTargets s ix id).isEmpty
  · rw [if_pos hempty]
    have hno : ∀ i, i < s.capacity → cell s ix i = id → False := by
      intro i h1 h2
      have hmem := (mem_matchTargets s ix id i).mpr ⟨h1, h2⟩
      rw [List.isEmpty_iff] at hempty
      rw [hempty] at hmem
      cases hmem
    refine ⟨⟨fun h => ?_, fun hex => ?_⟩, fun i h1 h2 d _ => (hno i h1 h2).elim, by simp⟩
    · simp at h
    · obtain ⟨i, h1, h2⟩ := hex
      exact (hno i h1 h2).elim
  · rw [if_neg hempty]
    have hne : matchTargets s ix id ≠ [] := by
      intro h
      exact hempty (by rw [h]; rfl)
    obtain ⟨t, ht⟩ := List.exists_mem_of_ne_nil _ hne
    have htm := (mem_matchTargets s ix id t).mp ht
    refine ⟨⟨fun _ => ⟨t, htm.1, htm.2⟩, fun _ => rfl⟩, fun i h1 h2 d hd => ?_,
      by simp [haof]⟩
    exact foldOverwrite_at r _ s i hwf (matchTargets_nodup s ix id)
      ((mem_matchTargets s ix id i).mpr ⟨h1, h2⟩) h1 d hd

/-- Witness for C4 (amended) at a concrete matching store. -/
theorem update_by_id_semantics_witness :
    (updateByIdRun ⟨[[5, 9]], 0, 2, 2, 1, false, true⟩ 0 5 [7]).found = true ∧
    cell (updateByIdRun ⟨[[5, 9]], 0, 2, 2, 1, false, true⟩ 0 5 [7]).state 0 0 = 7 ∧
    (updateByIdRun ⟨[[5, 9]], 0, 2, 2, 1, false, true⟩ 0 5 [7]).aof =
      [AofRecord.update 0 5 [7]] := by
  have h := update_by_id_semantics ⟨[[5, 9]], 0, 2, 2, 1, false, true⟩ 0 5 [7]
    ⟨rfl, by decide⟩ (by decide) (by decide) (by decide) rfl
  refine ⟨h.1.mpr ⟨0, by decide, by decide⟩, ?_, ?_⟩
  · exact h.2.1 0 (by decide) (by decide) 0 (by decide)
  · rw [h.2.2, if_pos (h.1.mpr ⟨0, by decide, by decide⟩)]

/-! ## C7: `delete` -/

/-- C7 counterexample: the row at slot 0 is not all-zero (lane 1 holds 5),
yet `delete(0)` returns false and leaves `len` untouched, because the code
tests liveness through lane 0 only. -/
theorem delete_liveness_cex :
    rowAllZero (assembled ⟨[[0], [5]], 0, 1, 1, 2, false, false⟩ 0) = false ∧
    (deleteRun ⟨[[0], [5]], 0, 1, 1, 2, false, false⟩ 0).2 = false ∧
    (deleteRun ⟨[[0], [5]], 0, 1, 1, 2, false, false⟩ 0).1 =
      ⟨[[0], [5]], 0, 1, 1, 2, false, false⟩ := by
  refine ⟨rfl, rfl, rfl⟩

/-- C7 (amended): for every `delete(idx)` call with `idx < C` whose slot is
live in lane 0 (`lanes[0][idx] ≠ 0` — the code's liveness test; a row
non-zero only in other lanes is not deletable): all lanes are zeroed at the
slot, `len` becomes `len - 1` (saturating at 0), and the call returns true.
If compaction is enabled, additionally every lane's slots `idx+1 .. C` are
shifted left by one into `idx .. C-1`, slot `C-1` is zeroed in every lane,
and the cursor is set to the new `len`. -/
theorem delete_semantics (s : Silo) (idx : Nat) (hwf : LanesWF s)
    (hidx : idx < s.capacity) (hlive : cell s 0 idx ≠ 0) :
    (deleteRun s idx).2 = true ∧
    (deleteRun s idx).1.len = s.len - 1 ∧
    (s.compaction = false →
      ∀ d < s.laneCount, cell (deleteRun s idx).1 d idx = 0) ∧
    (s.compaction = true →
      (deleteRun s idx).1.cursor = s.len - 1 ∧
      ∀ d < s.laneCount,
        (∀ j, j < idx → cell (deleteRun s idx).1 d j = cell s d j) ∧
        (∀ j, idx ≤ j → j + 1 < s.capacity →
          cell (deleteRun s idx).1 d j = cell s d (j + 1)) ∧
        cell (deleteRun s idx).1 d (s.capacity - 1) = 0) := by
  obtain ⟨hlen, hlane⟩ := hwf
  have hlensat : (if 0 < s.len then s.len - 1 else s.len) = s.len - 1 := by
    split <;> omega
  unfold deleteRun
  rw [if_neg (by omega), if_neg hlive]
  by_cases hcomp : s.compaction
  · rw [if_pos hcomp]
    refine ⟨rfl, hlensat, ?_, ?_⟩
    · intro hfalse
      rw [hcomp] at hfalse
      cases hfalse
    intro _
    refine ⟨hlensat, fun d hd => ?_⟩
    have hdlt : d < s.lanes.length := by omega
    have hl1len : ((s.lanes.getD d []).set idx 0).length = s.capacity := by
      rw [List.length_set]; exact hlane d hd
    by_cases hshift : idx < s.capacity - 1
    · rw [if_pos hshift]
      have hcellform : ∀ j,
          cell ({ s with
            lanes := (s.lanes.map (fun lane => lane.set idx 0)).map
              (fun lane => (lane.take idx ++ lane.drop (idx + 1)) ++ [0])
            len := if 0 < s.len then s.len - 1 else s.len
            cursor := if 0 < s.len then s.len - 1 else s.len } : Silo) d j =
          ((((s.lanes.getD d []).set idx 0).take idx ++
            ((s.lanes.getD d []).set idx 0).drop (idx + 1)) ++ [0]).getD j 0 := by
        intro j
        show ((((s.lanes.map _).map _).getD d []).getD j 0) = _
        rw [getD_map_lanes, if_pos (by simpa using hdlt), getD_map_lanes, if_pos hdlt]
      have htklen : (((s.lanes.getD d []).set idx 0).take idx).length = idx := by
        rw [List.length_take, hl1len]; omega
      have hmidlen : ((((s.lanes.getD d []).set idx 0).take idx ++
          ((s.lanes.getD d []).set idx 0).drop (idx + 1))).length = s.capacity - 1 := by
        rw [List.length_append, htklen, List.length_drop, hl1len]; omega
      refine ⟨fun j hj => ?_, fun j hj1 hj2 => ?_, ?_⟩
      · rw [hcellform j, getD_append_left (by rw [hmidlen]; omega),
          getD_append_left (by rw [htklen]; omega), getD_take _ _ _ _ hj,
          getD_set_ne (by omega)]
        rfl
      · rw [hcellform j, getD_append_left (by rw [hmidlen]; omega),
          getD_append_right _ _ _ _ (by rw [htklen]; omega), htklen, getD_drop]
        have harith : idx + 1 + (j - idx) = j + 1 := by omega
        rw [harith, getD_set_ne (by omega)]
        rfl
      · rw [hcellform (s.capacity - 1), getD_append_right _ _ _ _ hmidlen.le, hmidlen]
        have : s.capacity - 1 - (s.capacity - 1) = 0 := by omega
        rw [this]
        rfl
    · rw [if_neg hshift]
      have hcellform : ∀ j,
          cell ({ s with
            lanes := s.lanes.map (fun lane => lane.set idx 0)
            len := if 0 < s.len then s.len - 1 else s.len
            cursor := if 0 < s.len then s.len - 1 else s.len } : Silo) d j =
          ((s.lanes.getD d []).set idx 0).getD j 0 := by
        intro j
        show (((s.lanes.map _).getD d []).getD j 0) = _
        rw [getD_map_lanes, if_pos hdlt]
      refine ⟨fun j hj => ?_, fun j hj1 hj2 => by omega, ?_⟩
      · rw [hcellform j, getD_set_ne (by omega)]
        rfl
      · have hlast : s.capacity - 1 = idx := by omega
        rw [hcellform (s.capacity - 1), hlast]
        exact getD_set_self (by rw [hlane d hd]; omega)
  · rw [if_neg hcomp]
    refine ⟨rfl, hlensat, ?_, fun htrue => absurd htrue hcomp⟩
    intro _ d hd
    show (((s.lanes.map _).getD d []).getD idx 0) = 0
    rw [getD_map_lanes, if_pos (by omega)]
    exact getD_set_self (by rw [hlane d hd]; omega)

/-- Witness for C7 (amended): deleting a lane-0-live slot in a compacting
silo shifts the successor row forward and zeroes the tail. -/
theorem delete_semantics_witness :
    (deleteRun ⟨[[1, 2, 3]], 0, 3, 3, 1, true, false⟩ 0).2 = true ∧
    (deleteRun ⟨[[1, 2, 3]], 0, 3, 3, 1, true, false⟩ 0).1.len = 2 ∧
    cell (deleteRun ⟨[[1, 2, 3]], 0, 3, 3, 1, true, false⟩ 0).1 0 0 = 2 ∧
    cell (deleteRun ⟨[[1, 2, 3]], 0, 3, 3, 1, true, false⟩ 0).1 0 2 = 0 := by
  have h := delete_semantics ⟨[[1, 2, 3]], 0, 3, 3, 1, true, false⟩ 0
    ⟨rfl, by decide⟩ (by decide) (by decide)
  refine ⟨h.1, h.2.1, ?_, ?_⟩
  · have := ((h.2.2.2 rfl).2 0 (by decide)).2.1 0 (by decide) (by decide)
    rw [this]
    rfl
  · exact ((h.2.2.2 rfl).2 0 (by decide)).2.2

/-! ## C9: Vault load validation -/

/-- C9: when the existing Vault header (with a valid magic) records a
capacity or lane count different from the configured values,
`validate_and_load_vault` (the autoload path) fails with `ConfigMismatch`
before any lane data is loaded, whereas `restore_from_vault` fails with
`LaneCountMismatch`; in both cases the in-memory Silo state (`len`,
`cursor`, lanes) is returned unchanged by the failed load. -/
theorem vault_config_mismatch (s : Silo) (strict : Bool) (hdr : VaultHeader)
    (laneSizes : List Nat) (laneData : List (List Nat))
    (hmagic : hdr.magic = MAGIC_BYTES)
    (hmis : hdr.cap ≠ s.capacity ∨ hdr.dim ≠ s.laneCount) :
    validateAndLoadVault s strict true hdr laneSizes laneData =
      (s, some .configMismatch) ∧
    restoreFromVault s hdr laneSizes laneData = (s, some .laneCountMismatch) := by
  constructor
  · unfold validateAndLoadVault
    rw [if_neg (by simp), if_neg (by simp [hmagic]), if_pos hmis]
  · unfold restoreFromVault
    rw [if_neg (by simp [hmagic]), if_pos hmis]

/-- Witness for C9: a silo configured with `D = 3` rejects a `D = 2` vault
header, with untouched state. -/
theorem vault_config_mismatch_witness :
    validateAndLoadVault (emptySilo 4 3 false false) true true
        ⟨MAGIC_BYTES, 4, 0, 0, 2⟩ [64, 64] [] =
      (emptySilo 4 3 false false, some .configMismatch) ∧
    restoreFromVault (emptySilo 4 3 false false) ⟨MAGIC_BYTES, 4, 0, 0, 2⟩ [64, 64] [] =
      (emptySilo 4 3 false false, some .laneCountMismatch) :=
  vault_config_mismatch (emptySilo 4 3 false false) true ⟨MAGIC_BYTES, 4, 0, 0, 2⟩
    [64, 64] [] rfl (Or.inr (by decide))

/-! ## C8: tombstone rows are never returned -/

/-- Sorted insertion preserves membership. -/
theorem mem_insSorted (x a : Nat) (l : List Nat) :
    a ∈ insSorted x l ↔ a = x ∨ a ∈ l := by
  induction l with
  | nil => simp [insSorted]
  | cons y ys ih =>
    unfold insSorted
    split
    · simp
    · simp only [List.mem_cons, ih]
      tauto

/-- The ascending sort preserves membership. -/
theorem mem_sortAsc (a : Nat) (l : List Nat) : a ∈ sortAsc l ↔ a ∈ l := by
  induction l with
  | nil => simp [sortAsc]
  | cons y ys ih =>
    show a ∈ insSorted y (sortAsc ys) ↔ _
    rw [mem_insSorted, ih]
    simp

theorem mem_enumIdx (k : Nat) (l : List Nat) (p : Nat × Nat) (h : p ∈ enumIdx k l) :
    k ≤ p.1 ∧ p.1 - k < l.length ∧ l.getD (p.1 - k) 0 = p.2 := by
  induction l generalizing k with
  | nil => cases h
  | cons a t ih =>
    rcases List.mem_cons.mp h with heq | hmem
    · subst heq
      simp
    · obtain ⟨h1, h2, h3⟩ := ih (k + 1) hmem
      refine ⟨by omega, by simp; omega, ?_⟩
      have harith : p.1 - k = (p.1 - (k + 1)) + 1 := by omega
      rw [harith]
      simpa using h3

/-- Position `j` of the scan order is the physical index `physIdx s j`:
`cursor - 1 - j` in the unwrapped segment and `cap + cursor - 1 - j` in
the wrapped one. -/
theorem scanOrder_getD (s : Silo) (j : Nat) (hj : j < (scanOrder s).length) :
    (scanOrder s).getD j 0 = physIdx s j := by
  unfold scanOrder at *
  by_cases hfull : s.len = s.capacity
  · rw [if_pos hfull] at hj ⊢
    by_cases hjc : j < s.cursor
    · rw [getD_append_left (by simpa using hjc),
        getD_eq_getElem' (by simpa using hjc), List.getElem_reverse]
      rw [List.getElem_range]
      unfold physIdx
      rw [if_pos hjc]
      simp
    · have hjlen : j - s.cursor < (List.range' s.cursor (s.capacity - s.cursor)).reverse.length := by
        simp only [List.length_append, List.length_reverse, List.length_range,
          List.length_range'] at hj ⊢
        omega
      rw [getD_append_right _ _ _ _ (by simp; omega), List.length_reverse,
        List.length_range, getD_eq_getElem' hjlen, List.getElem_reverse]
      rw [List.getElem_range']
      unfold physIdx
      rw [if_neg hjc]
      simp only [List.length_reverse, List.length_range'] at hjlen ⊢
      omega
  · rw [if_neg hfull] at hj ⊢
    rw [List.append_nil] at hj ⊢
    have hjc : j < s.cursor := by simpa using hj
    rw [getD_eq_getElem' (by simpa using hjc), List.getElem_reverse, List.getElem_range]
    unfold physIdx
    rw [if_pos hjc]
    simp

/-- C8: for every Silo state, predicate and limit, no row returned by
`query_raw`, by the `query_iter` iterator, or designated by a logical index
from `find_indices`, is all-zero: tombstones are never returned. -/
theorem queries_skip_tombstones (s : Silo) (f : List Nat → Bool) (limit : Nat) :
    (∀ r ∈ queryRaw s f limit, rowAllZero r = false) ∧
    (∀ j ∈ findIndices s f limit, rowAllZero (assembled s (physIdx s j)) = false) ∧
    (∀ r ∈ iterRows s f, rowAllZero r = false) := by
  refine ⟨fun r hr => ?_, fun j hj => ?_, fun r hr => ?_⟩
  · unfold queryRaw at hr
    rcases List.mem_map.mp hr with ⟨i, hi, heq⟩
    have hfil := List.mem_of_mem_take hi
    have hcond := (List.mem_filter.mp hfil).2
    rw [Bool.and_eq_true, Bool.not_eq_true'] at hcond
    rw [← heq]
    exact hcond.1
  · unfold findIndices at hj
    have hj1 := (mem_sortAsc _ _).mp (List.mem_of_mem_take hj)
    rcases List.mem_filterMap.mp hj1 with ⟨p, hp, hsome⟩
    obtain ⟨hk, hplen, hpval⟩ := mem_enumIdx 0 _ p hp
    have hcond : (!(rowAllZero (assembled s p.2)) && f (assembled s p.2)) = true := by
      by_contra hfalse
      rw [Bool.not_eq_true] at hfalse
      rw [if_neg (by rw [hfalse]; exact Bool.false_ne_true)] at hsome
      cases hsome
    have hpj : p.1 = j := by
      rw [if_pos hcond] at hsome
      exact Option.some.inj hsome
    rw [Bool.and_eq_true, Bool.not_eq_true'] at hcond
    have hphys : p.2 = physIdx s j := by
      rw [← hpval]
      simp only [Nat.sub_zero]
      rw [hpj]
      exact scanOrder_getD s j (by rw [← hpj]; simpa using hplen)
    rw [← hphys]
    exact hcond.1
  · unfold iterRows at hr
    rcases List.mem_filterMap.mp hr with ⟨i, _, hsome⟩
    simp only at hsome
    by_cases hzero : rowAllZero (assembled s (physIdx s i))
    · rw [if_pos hzero] at hsome
      cases hsome
    · rw [if_neg hzero] at hsome
      by_cases hf : f (assembled s (physIdx s i))
      · rw [if_pos hf] at hsome
        rw [← Option.some.inj hsome]
        exact Bool.not_eq_true _ ▸ (Bool.of_not_eq_true hzero)
      · rw [if_neg hf] at hsome
        cases hsome

/-- Witness for C8 at a concrete one-row store. -/
theorem queries_skip_tombstones_witness :
    rowAllZero [5, 0] = false ∧
    [5, 0] ∈ queryRaw ⟨[[5, 0], [0, 0]], 1, 1, 2, 2, false, false⟩ (fun _ => true) 3 := by
  have h := queries_skip_tombstones ⟨[[5, 0], [0, 0]], 1, 1, 2, 2, false, false⟩
    (fun _ => true) 3
  have hmem : [5, 0] ∈ queryRaw ⟨[[5, 0], [0, 0]], 1, 1, 2, 2, false, false⟩
      (fun _ => true) 3 := by decide
  exact ⟨h.1 [5, 0] hmem, hmem⟩

/-- Successor of a modulus, spelled as a branch. -/
theorem succ_mod_eq (t C : Nat) (hC : 0 < C) :
    (t + 1) % C = if t % C + 1 = C then 0 else t % C + 1 := by
  rw [← Nat.mod_add_mod]
  by_cases h : t % C + 1 = C
  · rw [if_pos h, h, Nat.mod_self]
  · rw [if_neg h]
    exact Nat.mod_eq_of_lt (by have := Nat.mod_lt t hC; omega)

theorem mod_add_le_of_le (t C : Nat) (hC : 0 < C) (h : C ≤ t) : t % C + C ≤ t := by
  have hdm := Nat.div_add_mod t C
  have hq : 0 < t / C := Nat.div_pos h hC
  have h2 : C * 1 ≤ C * (t / C) := Nat.mul_le_mul_left C hq
  omega

/-- After one more insert, the cursor slot's writer is the new row. -/
theorem writerIdx_succ_cursor (t C : Nat) (hC : 0 < C) :
    writerIdx (t + 1) C (t % C) = some t := by
  have hm : t % C < C := Nat.mod_lt _ hC
  have hmle : t % C ≤ t := Nat.mod_le t C
  unfold writerIdx
  rw [succ_mod_eq t C hC]
  by_cases htC : t < C
  · have heq : t % C = t := Nat.mod_eq_of_lt htC
    split_ifs <;> first
      | rfl
      | exact congrArg some (by omega)
      | exact ((by omega : False)).elim
  · have hge : t % C + C ≤ t := mod_add_le_of_le t C hC (Nat.le_of_not_lt htC)
    split_ifs <;> first
      | rfl
      | exact congrArg some (by omega)
      | exact ((by omega : False)).elim

/-- After one more insert, every other slot keeps its writer. -/
theorem writerIdx_succ_ne (t C i : Nat) (hC : 0 < C) (hi : i < C)
    (hne : i ≠ t % C) : writerIdx (t + 1) C i = writerIdx t C i := by
  have hm : t % C < C := Nat.mod_lt _ hC
  have hmle : t % C ≤ t := Nat.mod_le t C
  unfold writerIdx
  rw [succ_mod_eq t C hC]
  by_cases htC : t < C
  · have heq : t % C = t := Nat.mod_eq_of_lt htC
    split_ifs <;> first
      | rfl
      | exact congrArg some (by omega)
      | exact ((by omega : False)).elim
  · have hge : t % C + C ≤ t := mod_add_le_of_le t C hC (Nat.le_of_not_lt htC)
    split_ifs <;> first
      | rfl
      | exact congrArg some (by omega)
      | exact ((by omega : False)).elim

theorem insState_zero (C D : Nat) (aof comp : Bool) (rs : List (List Nat)) (hC : 0 < C) :
    InsState C D rs 0 (emptySilo C D aof comp) := by
  refine ⟨rfl, rfl, by simp [emptySilo], fun d hd => ?_, by simp [emptySilo],
    by simp [emptySilo], fun d hd i hi => ?_⟩
  · show ((List.replicate D (List.replicate C 0)).getD d []).length = C
    rw [getD_replicate_of_lt hd]
    simp
  · have hw : writerIdx 0 C i = none := by
      unfold writerIdx
      rw [if_neg (by simp), if_neg (by omega)]
    rw [hw]
    show ((List.replicate D (List.replicate C 0)).getD d []).getD i 0 = 0
    rw [getD_replicate_of_lt hd]
    exact getD_replicate_zero C i

theorem insState_step (C D : Nat) (rs : List (List Nat)) (t : Nat) (s : Silo)
    (hC : 0 < C) (hD : 0 < D) (hs : InsState C D rs t s)
    (hrD : (rs.getD t []).length = D) :
    InsState C D rs (t + 1) (insertRow s (rs.getD t [])) := by
  obtain ⟨hcap, hdim, hlanes, hlanelen, hcur, hlenv, hcells⟩ := hs
  have hm : t % C < C := Nat.mod_lt _ hC
  have hwf : LanesWF s := ⟨by rw [hlanes, hdim], fun d hd => by
    rw [hcap]; exact hlanelen d (by rw [← hdim]; exact hd)⟩
  have hcwf := lanesWF_insertRow s (rs.getD t []) hwf
  refine ⟨hcap, hdim, ?_, ?_, ?_, ?_, ?_⟩
  · have h1 := hcwf.1
    show (insertRow s (rs.getD t [])).lanes.length = D
    rw [h1]
    show s.laneCount = D
    exact hdim
  · intro d hd
    have h2 := hcwf.2 d (show d < s.laneCount by rw [hdim]; exact hd)
    show ((insertRow s (rs.getD t [])).lanes.getD d []).length = C
    rw [h2]
    exact hcap
  · show (s.cursor + 1) % s.capacity = (t + 1) % C
    rw [hcur, hcap]
    exact Nat.mod_add_mod t C 1
  · show (if cell s 0 s.cursor = 0 ∧ s.len < s.capacity then s.len + 1 else s.len) =
      min (t + 1) C
    rw [hcur, hcap, hlenv]
    by_cases htC : t < C
    · have hmt : t % C = t := Nat.mod_eq_of_lt htC
      have hc0 : cell s 0 (t % C) = 0 := by
        have h := hcells 0 hD (t % C) hm
        have hw : writerIdx t C (t % C) = none := by
          unfold writerIdx
          rw [if_neg (by omega), if_neg (by omega)]
        rw [hw] at h
        exact h
      rw [if_pos ⟨hc0, by omega⟩]
      omega
    · rw [if_neg (by omega)]
      omega
  · intro d hd i hi
    by_cases hieq : i = t % C
    · have hic : i = s.cursor := by rw [hcur]; exact hieq
      subst hic
      have hval := cell_insertRow_at s (rs.getD t []) d hwf
        (by rw [hcur, hcap]; exact hm) (by rw [hdim]; exact hd) (by rw [hrD]; exact hd)
      rw [hval, hcur, writerIdx_succ_cursor t C hC]
    · rw [cell_insertRow_ne s _ d i (by rw [hcur]; exact hieq),
        hcells d hd i hi, writerIdx_succ_ne t C i hC hi hieq]

/-- Running `insert_batch` over the remaining rows carries the invariant to
the end of the sequence, with no error. -/
theorem insState_batch (C D : Nat) (rs : List (List Nat)) (hC : 0 < C) (hD : 0 < D)
    (hrows : ∀ r ∈ rs, r.length = D) :
    ∀ (todo : List (List Nat)) (t : Nat) (s : Silo), rs.drop t = todo →
      t ≤ rs.length → InsState C D rs t s →
      InsState C D rs rs.length (insertBatchRun s todo).state ∧
        (insertBatchRun s todo).err = none := by
  intro todo
  induction todo with
  | nil =>
    intro t s hdrop htle hs
    have ht : t = rs.length := by
      have := congrArg List.length hdrop
      rw [List.length_drop] at this
      simp at this
      omega
    subst ht
    exact ⟨hs, rfl⟩
  | cons r todo' ih =>
    intro t s hdrop htle hs
    obtain ⟨hget, hdrop'⟩ := drop_eq_cons_getD hdrop
    have htlt : t < rs.length := by
      have := congrArg List.length hdrop
      rw [List.length_drop] at this
      simp at this
      omega
    have hrlen : r.length = D := hrows r (hget ▸ @getD_mem (List Nat) rs t [] htlt)
    have hguard : ¬ r.length ≠ s.laneCount := by
      rw [hrlen, hs.2.1]
      exact fun h => h rfl
    show InsState C D rs rs.length (insertBatchRun s (r :: todo')).state ∧
      (insertBatchRun s (r :: todo')).err = none
    unfold insertBatchRun
    rw [if_neg hguard]
    have hstep := insState_step C D rs t s hC hD hs (by rw [hget]; exact hrlen)
    rw [hget] at hstep
    exact ih (t + 1) (insertRow s r) hdrop' (by omega) hstep

/-- Reading each in-range position of a row through getD reassembles it. -/
theorem map_range_getD_self (r : List Nat) (n : Nat) (h : r.length = n) :
    (List.range n).map (fun d => r.getD d 0) = r := by
  refine List.ext_getElem (by simp [h]) (fun j h1 h2 => ?_)
  rw [List.getElem_map, List.getElem_range]
  exact getD_eq_getElem' h2

/-- C2: for every capacity `C ≥ 1` and every `k > 0`, after inserting
`C + k` rows of width `D` whose last `C` rows are non-tombstones (as rows
carrying distinct non-zero markers are) into an initially empty ring-buffer
Silo, `take C` returns exactly the last `C` rows, newest first — that is,
the reverse of `rs.drop k`. -/
theorem wraparound_take (C D k : Nat) (rs : List (List Nat)) (aof comp : Bool)
    (hC : 0 < C) (hD : 0 < D) (hk : 0 < k) (hlen : rs.length = C + k)
    (hrows : ∀ r ∈ rs, r.length = D)
    (hlive : ∀ r ∈ rs.drop k, rowAllZero r = false) :
    takeLatest (insertBatchRun (emptySilo C D aof comp) rs).state C =
      (rs.drop k).reverse := by
  have hfin := (insState_batch C D rs hC hD hrows rs 0 (emptySilo C D aof comp)
    (by simp) (by omega) (insState_zero C D aof comp rs hC)).1
  rw [hlen] at hfin
  set s1 := (insertBatchRun (emptySilo C D aof comp) rs).state with hs1
  obtain ⟨hcap, hdim, hlanes, hlanelen, hcur, hlenv, hcells⟩ := hfin
  have hmod : (C + k) % C = k % C := Nat.add_mod_left C k
  have hm : k % C < C := Nat.mod_lt _ hC
  have hcur' : s1.cursor = k % C := by rw [hcur, hmod]
  have hlen' : s1.len = C := by rw [hlenv]; omega
  -- every slot below C carries one of the last C rows
  have hslot : ∀ i < C, ∃ w, writerIdx (C + k) C i = some w ∧ k ≤ w ∧ w < C + k ∧
      (i < k % C → w = C + k - (k % C) + i) ∧
      (k % C ≤ i → w = C + k + i - (k % C) - C) := by
    intro i hi
    unfold writerIdx
    rw [hmod]
    by_cases hcase : i < k % C
    · exact ⟨C + k - k % C + i, by rw [if_pos hcase], by omega, by omega,
        fun _ => rfl, fun h => by omega⟩
    · refine ⟨C + k + i - k % C - C, ?_, by omega, by omega, fun h => by omega, fun _ => rfl⟩
      rw [if_neg hcase, if_pos (by omega)]
  have hassembled : ∀ i < C, ∀ w, writerIdx (C + k) C i = some w → w < C + k →
      assembled s1 i = rs.getD w [] := by
    intro i hi w hw hwlt
    unfold assembled
    rw [hdim]
    have hrw : ∀ d < D, cell s1 d i = (rs.getD w []).getD d 0 := by
      intro d hd
      have h := hcells d hd i hi
      rw [hw] at h
      exact h
    have hlenw : (rs.getD w []).length = D :=
      hrows _ (getD_mem (by omega))
    refine List.ext_getElem (by rw [List.length_map, List.length_range, hlenw])
      (fun j h1 h2 => ?_)
    rw [List.getElem_map, List.getElem_range]
    have hjD : j < D := by simpa using h1
    rw [hrw j hjD]
    exact getD_eq_getElem' h2
  have horder : scanOrder s1 =
      (List.range (k % C)).reverse ++ (List.range' (k % C) (C - k % C)).reverse := by
    unfold scanOrder
    rw [hcur', hcap, hlen', if_pos rfl]
  have horderlen : (scanOrder s1).length = C := by
    rw [horder]
    simp only [List.length_append, List.length_reverse, List.length_range,
      List.length_range']
    omega
  -- the scan keeps every slot: all C slots are live
  have hkeep : ∀ i ∈ scanOrder s1,
      (!(rowAllZero (assembled s1 i)) && (fun _ => true) (assembled s1 i)) = true := by
    intro i hmem
    have hiC : i < C := by
      rw [horder] at hmem
      rcases List.mem_append.mp hmem with h | h
      · have := List.mem_range.mp (List.mem_reverse.mp h)
        omega
      · obtain ⟨q, hq, hiq⟩ := List.mem_range'.mp (List.mem_reverse.mp h)
        omega
    obtain ⟨w, hw, hwk, hwlt, _, _⟩ := hslot i hiC
    have hasm := hassembled i hiC w hw hwlt
    have hrowmem : rs.getD w [] ∈ rs.drop k := by
      have : (rs.drop k).getD (w - k) [] = rs.getD w [] := by
        rw [getD_drop]
        congr 1
        omega
      rw [← this]
      exact getD_mem (by rw [List.length_drop]; omega)
    rw [hasm, hlive _ hrowmem]
    rfl
  have hfilter : (scanOrder s1).filter
      (fun i => !(rowAllZero (assembled s1 i)) && (fun _ => true) (assembled s1 i)) =
      scanOrder s1 := List.filter_eq_self.mpr hkeep
  show (((scanOrder s1).filter _).take C).map (assembled s1) = (rs.drop k).reverse
  rw [hfilter, List.take_of_length_le (by omega)]
  -- elementwise comparison
  refine List.ext_getElem ?_ (fun j h1 h2 => ?_)
  · simp only [List.length_map, List.length_reverse, List.length_drop, horderlen]
    omega
  · have hjC : j < C := by
      simpa [horderlen] using h1
    rw [List.getElem_map]
    have hphys : (scanOrder s1)[j] = physIdx s1 j := by
      rw [← getD_eq_getElem' (by omega)]
      exact scanOrder_getD s1 j (by omega)
    have hphysval : physIdx s1 j < C ∧
        ((j < k % C → physIdx s1 j = k % C - 1 - j) ∧
         (k % C ≤ j → physIdx s1 j = C + k % C - 1 - j)) := by
      unfold physIdx
      rw [hcur', hcap]
      by_cases hcase : k % C > j
      · rw [if_pos hcase]
        exact ⟨by omega, fun _ => rfl, fun h => by omega⟩
      · rw [if_neg hcase]
        exact ⟨by omega, fun h => by omega, fun _ => rfl⟩
    obtain ⟨w, hw, hwk, hwlt, hwlow, hwhigh⟩ := hslot (physIdx s1 j) hphysval.1
    have hweq : w = C + k - 1 - j := by
      by_cases hcase : j < k % C
      · have h1' := hphysval.2.1 hcase
        have h2' := hwlow (by omega)
        omega
      · have h1' := hphysval.2.2 (by omega)
        have h2' := hwhigh (by omega)
        omega
    rw [hphys, hassembled (physIdx s1 j) hphysval.1 w hw hwlt, hweq]
    have hdroplen : (rs.drop k).length = C := by rw [List.length_drop]; omega
    rw [List.getElem_reverse, List.getElem_drop, getD_eq_getElem' (by omega)]
    congr 1
    rw [hdroplen]
    omega

/-- Witness for C2: capacity 2, three one-cell rows; `take 2` returns the
last two rows newest-first. -/
theorem wraparound_take_witness :
    takeLatest (insertBatchRun (emptySilo 2 1 true false) [[1], [2], [3]]).state 2 =
      [[3], [2]] := by
  have h := wraparound_take 2 1 1 [[1], [2], [3]] true false (by decide) (by decide)
    (by decide) (by decide) (by decide) (by decide)
  exact h

theorem liveB_iff (s : Silo) (i : Nat) :
    liveB s i = true ↔ ∃ d, d < s.laneCount ∧ cell s d i ≠ 0 := by
  unfold liveB
  rw [List.any_eq_true]
  constructor
  · rintro ⟨d, hd, hne⟩
    exact ⟨d, List.mem_range.mp hd, by simpa using hne⟩
  · rintro ⟨d, hd, hne⟩
    exact ⟨d, List.mem_range.mpr hd, by simpa using hne⟩

/-- Pointwise equal cells (and equal lane counts) give equal liveness. -/
theorem liveB_congr (s s' : Silo) (i : Nat) (hdim : s'.laneCount = s.laneCount)
    (hcells : ∀ d, cell s' d i = cell s d i) : liveB s' i = liveB s i := by
  unfold liveB
  rw [hdim]
  congr 1
  funext d
  rw [hcells d]

theorem liveCount_le_capacity (s : Silo) : liveCount s ≤ s.capacity := by
  calc liveCount s ≤ (Finset.range s.capacity).card := Finset.card_filter_le _ _
    _ = s.capacity := Finset.card_range _

/-- Changing only slot `i` raises the live count by at most one. -/
theorem liveCount_le_succ_of (s s' : Silo) (hcap : s'.capacity = s.capacity) (i : Nat)
    (hfr : ∀ j, j ≠ i → liveB s' j = liveB s j) : liveCount s' ≤ liveCount s + 1 := by
  have hsub : (Finset.range s'.capacity).filter (fun j => liveB s' j = true) ⊆
      insert i ((Finset.range s.capacity).filter (fun j => liveB s j = true)) := by
    intro j hj
    obtain ⟨hjr, hjl⟩ := Finset.mem_filter.mp hj
    by_cases hji : j = i
    · exact Finset.mem_insert.mpr (Or.inl hji)
    · refine Finset.mem_insert.mpr (Or.inr (Finset.mem_filter.mpr ⟨?_, ?_⟩))
      · rw [← hcap]; exact hjr
      · rw [← hfr j hji]; exact hjl
  calc liveCount s' ≤ (insert i ((Finset.range s.capacity).filter
        (fun j => liveB s j = true))).card := Finset.card_le_card hsub
    _ ≤ liveCount s + 1 := Finset.card_insert_le _ _

/-- If the only changed slot cannot become newly live, the count does not grow. -/
theorem liveCount_le_of_imp_at (s s' : Silo) (hcap : s'.capacity = s.capacity) (i : Nat)
    (hfr : ∀ j, j ≠ i → liveB s' j = liveB s j)
    (him : liveB s' i = true → liveB s i = true) : liveCount s' ≤ liveCount s := by
  refine Finset.card_le_card (fun j hj => ?_)
  obtain ⟨hjr, hjl⟩ := Finset.mem_filter.mp hj
  refine Finset.mem_filter.mpr ⟨by rw [← hcap]; exact hjr, ?_⟩
  by_cases hji : j = i
  · subst hji
    exact him hjl
  · rw [← hfr j hji]
    exact hjl

/-- Killing a live slot strictly drops the live count. -/
theorem liveCount_pred (s s' : Silo) (hcap : s'.capacity = s.capacity) (i : Nat)
    (hiC : i < s.capacity) (hlive : liveB s i = true) (hdead : liveB s' i = false)
    (hfr : ∀ j, j ≠ i → liveB s' j = liveB s j) :
    liveCount s' ≤ liveCount s - 1 := by
  have hmem : i ∈ (Finset.range s.capacity).filter (fun j => liveB s j = true) :=
    Finset.mem_filter.mpr ⟨Finset.mem_range.mpr hiC, hlive⟩
  have hsub : (Finset.range s'.capacity).filter (fun j => liveB s' j = true) ⊆
      ((Finset.range s.capacity).filter (fun j => liveB s j = true)).erase i := by
    intro j hj
    obtain ⟨hjr, hjl⟩ := Finset.mem_filter.mp hj
    have hji : j ≠ i := by
      intro h
      subst h
      rw [hdead] at hjl
      cases hjl
    refine Finset.mem_erase.mpr ⟨hji, Finset.mem_filter.mpr ⟨by rw [← hcap]; exact hjr, ?_⟩⟩
    rw [← hfr j hji]
    exact hjl
  calc liveCount s' ≤ _ := Finset.card_le_card hsub
    _ = liveCount s - 1 := Finset.card_erase_of_mem hmem

/-- A live slot witnesses a positive live count. -/
theorem liveCount_pos (s : Silo) (i : Nat) (hiC : i < s.capacity)
    (hlive : liveB s i = true) : 1 ≤ liveCount s :=
  Finset.card_pos.mpr ⟨i, Finset.mem_filter.mpr ⟨Finset.mem_range.mpr hiC, hlive⟩⟩

/-- Changing only slots inside `S` raises the live count by at most `|S|`. -/
theorem liveCount_le_add_card (s s' : Silo) (hcap : s'.capacity = s.capacity)
    (S : Finset Nat) (hfr : ∀ j, j ∉ S → liveB s' j = liveB s j) :
    liveCount s' ≤ liveCount s + S.card := by
  have hsub : (Finset.range s'.capacity).filter (fun j => liveB s' j = true) ⊆
      ((Finset.range s.capacity).filter (fun j => liveB s j = true)) ∪ S := by
    intro j hj
    obtain ⟨hjr, hjl⟩ := Finset.mem_filter.mp hj
    by_cases hjS : j ∈ S
    · exact Finset.mem_union_right _ hjS
    · refine Finset.mem_union_left _ (Finset.mem_filter.mpr ⟨by rw [← hcap]; exact hjr, ?_⟩)
      rw [← hfr j hjS]
      exact hjl
  calc liveCount s' ≤ _ := Finset.card_le_card hsub
    _ ≤ liveCount s + S.card := Finset.card_union_le _ _

/-- A non-zero lane-0 cell forces a positive lane count (under WF). -/
theorem laneCount_pos_of_cell0 (s : Silo) (hwf : LanesWF s) (i : Nat)
    (h : cell s 0 i ≠ 0) : 0 < s.laneCount := by
  rw [← hwf.1]
  by_contra hz
  push_neg at hz
  have hempty : s.lanes = [] := List.length_eq_zero.mp (by omega)
  apply h
  unfold cell
  rw [hempty]
  rfl

theorem liveB_of_cell_ne (s : Silo) (i d : Nat) (hd : d < s.laneCount)
    (h : cell s d i ≠ 0) : liveB s i = true :=
  (liveB_iff s i).mpr ⟨d, hd, h⟩

theorem inv_insertRow (s : Silo) (r : List Nat) (hinv : Inv s) : Inv (insertRow s r) := by
  obtain ⟨hlive, hlen, hcur, hwf⟩ := hinv
  have hcap0 : 0 < s.capacity := by omega
  have hfr : ∀ j, j ≠ s.cursor → liveB (insertRow s r) j = liveB s j := by
    intro j hj
    exact liveB_congr s (insertRow s r) j rfl (fun d => cell_insertRow_ne s r d j hj)
  refine ⟨?_, ?_, ?_, lanesWF_insertRow s r hwf⟩
  · show liveCount (insertRow s r) ≤
      (if cell s 0 s.cursor = 0 ∧ s.len < s.capacity then s.len + 1 else s.len)
    by_cases h1 : cell s 0 s.cursor = 0
    · by_cases h2 : s.len < s.capacity
      · rw [if_pos ⟨h1, h2⟩]
        have := liveCount_le_succ_of s (insertRow s r) rfl s.cursor hfr
        omega
      · rw [if_neg (fun h => h2 h.2)]
        have := liveCount_le_capacity (insertRow s r)
        have hc : (insertRow s r).capacity = s.capacity := rfl
        omega
    · rw [if_neg (fun h => h1 h.1)]
      have hl0 : liveB s s.cursor = true :=
        liveB_of_cell_ne s s.cursor 0 (laneCount_pos_of_cell0 s hwf s.cursor h1) h1
      have := liveCount_le_of_imp_at s (insertRow s r) rfl s.cursor hfr (fun _ => hl0)
      omega
  · show (if cell s 0 s.cursor = 0 ∧ s.len < s.capacity then s.len + 1 else s.len) ≤
      s.capacity
    split <;> omega
  · show (s.cursor + 1) % s.capacity < s.capacity
    exact Nat.mod_lt _ hcap0

theorem inv_insertBatchRun (rows : List (List Nat)) :
    ∀ s : Silo, Inv s → Inv (insertBatchRun s rows).state := by
  induction rows with
  | nil => intro s hinv; exact hinv
  | cons r rest ih =>
    intro s hinv
    show Inv (insertBatchRun s (r :: rest)).state
    unfold insertBatchRun
    by_cases hg : r.length ≠ s.laneCount
    · rw [if_pos hg]
      exact hinv
    · rw [if_neg hg]
      exact ih (insertRow s r) (inv_insertRow s r hinv)

theorem inv_laneBatchRun (s : Silo) (ix : Nat) (values : List Nat) (hinv : Inv s) :
    Inv (laneBatchRun s ix values).state := by
  obtain ⟨hlive, hlen, hcur, hwf⟩ := hinv
  have hcap0 : 0 < s.capacity := by omega
  unfold laneBatchRun
  by_cases hg1 : ix ≥ s.laneCount
  · rw [if_pos hg1]
    exact ⟨hlive, hlen, hcur, hwf⟩
  · rw [if_neg hg1]
    by_cases hg2 : values.length > s.capacity
    · rw [if_pos hg2]
      exact ⟨hlive, hlen, hcur, hwf⟩
    · rw [if_neg hg2]
      set s' : Silo := { s with
        lanes := mapLanes (fun d lane =>
          if d = ix then writeRange lane s.cursor s.capacity values
          else writeRange lane s.cursor s.capacity (List.replicate values.length 0)) s.lanes
        len := min (s.len + values.length) s.capacity
        cursor := (s.cursor + values.length) % s.capacity } with hs'
    -- frame outside the written wrap-around window
      have hfr : ∀ j, j ∉ (Finset.range values.length).image
          (fun i => (s.cursor + i) % s.capacity) → liveB s' j = liveB s j := by
        intro j hjS
        have hjmod : ∀ i < values.length, (s.cursor + i) % s.capacity ≠ j := by
          intro i hi hcon
          exact hjS (Finset.mem_image.mpr ⟨i, Finset.mem_range.mpr hi, hcon⟩)
        refine liveB_congr s s' j rfl (fun d => ?_)
        show ((mapLanes _ s.lanes).getD d []).getD j 0 = (s.lanes.getD d []).getD j 0
        rw [getD_mapLanes]
        by_cases hd : d < s.lanes.length
        · rw [if_pos hd]
          have hdlt : d < s.laneCount := by rw [← hwf.1]; exact hd
          by_cases hdi : d = ix
          · rw [if_pos hdi]
            exact getD_writeRange_frame _ _ _ _ _ (hwf.2 d hdlt) hcur (by omega) hjmod
          · rw [if_neg hdi]
            exact getD_writeRange_frame _ _ _ _ _ (hwf.2 d hdlt) hcur (by simp; omega)
              (by simpa using hjmod)
        · rw [if_neg hd, getD_of_length_le (Nat.le_of_not_lt hd)]
      have hbound := liveCount_le_add_card s s' rfl _ hfr
      have hScard : ((Finset.range values.length).image
          (fun i => (s.cursor + i) % s.capacity)).card ≤ values.length := by
        calc _ ≤ (Finset.range values.length).card := Finset.card_image_le
          _ = values.length := Finset.card_range _
      refine ⟨?_, ?_, ?_, ?_, ?_⟩
      · show liveCount s' ≤ min (s.len + values.length) s.capacity
        have hc := liveCount_le_capacity s'
        have hcc : s'.capacity = s.capacity := rfl
        refine le_min (by omega) (by omega)
      · show min (s.len + values.length) s.capacity ≤ s.capacity
        omega
      · show (s.cursor + values.length) % s.capacity < s.capacity
        exact Nat.mod_lt _ hcap0
      · show s'.lanes.length = s.laneCount
        rw [hs']
        show (mapLanes _ s.lanes).length = s.laneCount
        rw [length_mapLanes, hwf.1]
      · intro d hd
        show (s'.lanes.getD d []).length = s.capacity
        rw [hs']
        show ((mapLanes _ s.lanes).getD d []).length = s.capacity
        rw [getD_mapLanes, if_pos (by rw [hwf.1]; exact hd)]
        by_cases hdi : d = ix
        · rw [if_pos hdi, length_writeRange]
          exact hwf.2 d hd
        · rw [if_neg hdi, length_writeRange]
          exact hwf.2 d hd

theorem inv_apiLaneBatch (s : Silo) (ix : Nat) (values : List Nat) (hinv : Inv s) :
    Inv (apiLaneBatch s ix values).state := by
  unfold apiLaneBatch
  split
  · exact hinv
  · exact inv_laneBatchRun s ix values hinv

theorem inv_foldOverwrite (r : List Nat) (ix id : Nat) (hid : id ≠ 0) :
    ∀ (ts : List Nat) (s : Silo), Inv s → ix < s.laneCount → ts.Nodup →
      (∀ t ∈ ts, cell s ix t = id) →
      Inv (ts.foldl (fun acc i => overwriteAt acc i r) s) := by
  intro ts
  induction ts with
  | nil => intro s hinv _ _ _; exact hinv
  | cons t ts' ih =>
    intro s hinv hix hnd hmatch
    obtain ⟨hlive, hlen, hcur, hwf⟩ := hinv
    have hlt : liveB s t = true :=
      liveB_of_cell_ne s t ix hix (by rw [hmatch t (List.mem_cons_self t ts')]; exact hid)
    have hfr : ∀ j, j ≠ t → liveB (overwriteAt s t r) j = liveB s j := by
      intro j hj
      exact liveB_congr s _ j rfl (fun d => cell_overwriteAt_ne s t r d j hj)
    have hinv1 : Inv (overwriteAt s t r) := by
      refine ⟨?_, hlen, hcur, lanesWF_overwriteAt s t r hwf⟩
      have := liveCount_le_of_imp_at s (overwriteAt s t r) rfl t hfr (fun _ => hlt)
      have hl : (overwriteAt s t r).len = s.len := rfl
      omega
    refine ih (overwriteAt s t r) hinv1 hix (List.nodup_cons.mp hnd).2 (fun u hu => ?_)
    rw [cell_overwriteAt_ne s t r ix u
      (fun h => (List.nodup_cons.mp hnd).1 (h ▸ hu))]
    exact hmatch u (List.mem_cons_of_mem t hu)

theorem inv_updateByIdRun (s : Silo) (ix id : Nat) (r : List Nat) (hinv : Inv s) :
    Inv (updateByIdRun s ix id r).state := by
  unfold updateByIdRun
  split
  · exact hinv
  · split
    · exact hinv
    · split
      · exact hinv
      · rename_i hguard hix hne
        push_neg at hguard
        exact inv_foldOverwrite r ix id hguard.1 (matchTargets s ix id) s hinv
          (by omega) (matchTargets_nodup s ix id)
          (fun t ht => ((mem_matchTargets s ix id t).mp ht).2)

/-- Cells after zeroing the row at slot `t`. -/
theorem cell_zeroRowStep_ne (s : Silo) (t : Nat) (d j : Nat) (hj : j ≠ t) :
    cell (zeroRowStep s t) d j = cell s d j := by
  show ((s.lanes.map _).getD d []).getD j 0 = (s.lanes.getD d []).getD j 0
  rw [getD_map_lanes]
  by_cases hd : d < s.lanes.length
  · rw [if_pos hd, getD_set_ne (fun h => hj h.symm)]
  · rw [if_neg hd, getD_of_length_le (Nat.le_of_not_lt hd)]

theorem cell_zeroRowStep_self (s : Silo) (t : Nat) (d : Nat) :
    cell (zeroRowStep s t) d t = 0 := by
  show ((s.lanes.map _).getD d []).getD t 0 = 0
  rw [getD_map_lanes]
  by_cases hd : d < s.lanes.length
  · rw [if_pos hd]
    by_cases ht : t < (s.lanes.getD d []).length
    · exact getD_set_self ht
    · exact getD_of_length_le (by rw [List.length_set]; omega)
  · rw [if_neg hd]
    rfl

theorem lanesWF_zeroRowStep (s : Silo) (t : Nat) (hwf : LanesWF s) :
    LanesWF (zeroRowStep s t) := by
  refine ⟨?_, fun d hd => ?_⟩
  · show (s.lanes.map _).length = s.laneCount
    rw [List.length_map, hwf.1]
  · have hd' : d < s.laneCount := hd
    show ((s.lanes.map _).getD d []).length = s.capacity
    rw [getD_map_lanes, if_pos (by rw [hwf.1]; exact hd'), List.length_set]
    exact hwf.2 d hd'

theorem inv_foldZero (ix id : Nat) (hid : id ≠ 0) :
    ∀ (ts : List Nat) (s : Silo), Inv s → ix < s.laneCount → ts.Nodup →
      (∀ t ∈ ts, t < s.capacity ∧ cell s ix t = id) →
      Inv (ts.foldl zeroRowStep s) := by
  intro ts
  induction ts with
  | nil => intro s hinv _ _ _; exact hinv
  | cons t ts' ih =>
    intro s hinv hix hnd hmatch
    obtain ⟨hlive, hlen, hcur, hwf⟩ := hinv
    obtain ⟨htC, htid⟩ := hmatch t (List.mem_cons_self t ts')
    have hlt : liveB s t = true :=
      liveB_of_cell_ne s t ix hix (by rw [htid]; exact hid)
    have hdead : liveB (zeroRowStep s t) t = false := by
      rw [Bool.eq_false_iff]
      intro hcon
      obtain ⟨d, _, hne⟩ := (liveB_iff _ t).mp hcon
      exact hne (cell_zeroRowStep_self s t d)
    have hfr : ∀ j, j ≠ t → liveB (zeroRowStep s t) j = liveB s j := by
      intro j hj
      exact liveB_congr s _ j rfl (fun d => cell_zeroRowStep_ne s t d j hj)
    have hpos : 1 ≤ liveCount s := liveCount_pos s t htC hlt
    have hdrop := liveCount_pred s (zeroRowStep s t) rfl t htC hlt hdead hfr
    have hinv1 : Inv (zeroRowStep s t) := by
      refine ⟨?_, ?_, hcur, lanesWF_zeroRowStep s t hwf⟩
      · show liveCount (zeroRowStep s t) ≤ (if 0 < s.len then s.len - 1 else s.len)
        rw [if_pos (by omega)]
        omega
      · show (if 0 < s.len then s.len - 1 else s.len) ≤ s.capacity
        split <;> omega
    refine ih (zeroRowStep s t) hinv1 hix (List.nodup_cons.mp hnd).2 (fun u hu => ?_)
    have hut : u ≠ t := fun h => (List.nodup_cons.mp hnd).1 (h ▸ hu)
    obtain ⟨huC, huid⟩ := hmatch u (List.mem_cons_of_mem t hu)
    exact ⟨huC, by rw [cell_zeroRowStep_ne s t ix u hut]; exact huid⟩

theorem inv_purgeRun (s : Silo) (ix id : Nat) (hinv : Inv s) :
    Inv (purgeRun s ix id).1 := by
  unfold purgeRun
  split
  · exact hinv
  · rename_i hguard
    push_neg at hguard
    exact inv_foldZero ix id hguard.1 (matchTargets s ix id) s hinv (by omega)
      (matchTargets_nodup s ix id)
      (fun t ht => ⟨((mem_matchTargets s ix id t).mp ht).1,
        ((mem_matchTargets s ix id t).mp ht).2⟩)

/-- Cell formula for the left-shift-by-one-and-zero-tail lane transform. -/
theorem shiftLane_getD (lane : List Nat) (idx cap j : Nat)
    (hlen : lane.length = cap) (hidx : idx < cap) :
    ((lane.take idx ++ lane.drop (idx + 1)) ++ [0]).getD j 0 =
      if j < idx then lane.getD j 0
      else if j + 1 < cap then lane.getD (j + 1) 0
      else 0 := by
  have htklen : (lane.take idx).length = idx := by
    rw [List.length_take]; omega
  have hmidlen : (lane.take idx ++ lane.drop (idx + 1)).length = cap - 1 := by
    rw [List.length_append, htklen, List.length_drop]; omega
  by_cases h1 : j < idx
  · rw [if_pos h1, getD_append_left (by omega), getD_append_left (by omega),
      getD_take _ _ _ _ h1]
  · rw [if_neg h1]
    by_cases h2 : j + 1 < cap
    · rw [if_pos h2, getD_append_left (by omega),
        getD_append_right _ _ _ _ (by omega), htklen, getD_drop]
      congr 1
      omega
    · rw [if_neg h2, getD_append_right _ _ _ _ (by omega)]
      by_cases h3 : j - (lane.take idx ++ lane.drop (idx + 1)).length = 0
      · rw [h3]
        rfl
      · exact getD_of_length_le (by simp; omega)

theorem inv_deleteRun (s : Silo) (idx : Nat) (hinv : Inv s) : Inv (deleteRun s idx).1 := by
  obtain ⟨hlive, hlen, hcur, hwf⟩ := hinv
  unfold deleteRun
  by_cases hg1 : idx ≥ s.capacity
  · rw [if_pos hg1]
    exact ⟨hlive, hlen, hcur, hwf⟩
  · rw [if_neg hg1]
    by_cases hg2 : cell s 0 idx = 0
    · rw [if_pos hg2]
      exact ⟨hlive, hlen, hcur, hwf⟩
    · rw [if_neg hg2]
      have hidx : idx < s.capacity := by omega
      have hl0 : liveB s idx = true :=
        liveB_of_cell_ne s idx 0 (laneCount_pos_of_cell0 s hwf idx hg2) hg2
      have hpos : 1 ≤ liveCount s := liveCount_pos s idx hidx hl0
      -- the zero-at-idx intermediate state (the non-compaction result)
      set s₁ : Silo := { s with
        lanes := s.lanes.map (fun lane => lane.set idx 0)
        len := if 0 < s.len then s.len - 1 else s.len } with hs₁
      have hdead1 : liveB s₁ idx = false := by
        rw [Bool.eq_false_iff]
        intro hcon
        obtain ⟨d, _, hne⟩ := (liveB_iff _ idx).mp hcon
        apply hne
        show ((s.lanes.map _).getD d []).getD idx 0 = 0
        rw [getD_map_lanes]
        by_cases hd : d < s.lanes.length
        · rw [if_pos hd]
          by_cases ht : idx < (s.lanes.getD d []).length
          · exact getD_set_self ht
          · exact getD_of_length_le (by rw [List.length_set]; omega)
        · rw [if_neg hd]
          rfl
      have hfr1 : ∀ j, j ≠ idx → liveB s₁ j = liveB s j := by
        intro j hj
        refine liveB_congr s s₁ j rfl (fun d => ?_)
        show ((s.lanes.map _).getD d []).getD j 0 = (s.lanes.getD d []).getD j 0
        rw [getD_map_lanes]
        by_cases hd : d < s.lanes.length
        · rw [if_pos hd, getD_set_ne (fun h => hj h.symm)]
        · rw [if_neg hd, getD_of_length_le (Nat.le_of_not_lt hd)]
      have hdrop1 := liveCount_pred s s₁ rfl idx hidx hl0 hdead1 hfr1
      have hwf1 : LanesWF s₁ := by
        refine ⟨?_, fun d hd => ?_⟩
        · show (s.lanes.map _).length = s.laneCount
          rw [List.length_map, hwf.1]
        · have hd' : d < s.laneCount := hd
          show ((s.lanes.map _).getD d []).length = s.capacity
          rw [getD_map_lanes, if_pos (by rw [hwf.1]; exact hd'), List.length_set]
          exact hwf.2 d hd'
      have hlen1 : s₁.len = s.len - 1 := by
        show (if 0 < s.len then s.len - 1 else s.len) = s.len - 1
        split <;> omega
      by_cases hcomp : s.compaction
      · rw [if_pos hcomp]
        by_cases hshift : idx < s.capacity - 1
        · rw [if_pos hshift]
          set s₂ : Silo := { s with
            lanes := (s.lanes.map (fun lane => lane.set idx 0)).map
              (fun lane => (lane.take idx ++ lane.drop (idx + 1)) ++ [0])
            len := if 0 < s.len then s.len - 1 else s.len
            cursor := if 0 < s.len then s.len - 1 else s.len } with hs₂
          have hcell2 : ∀ d j, cell s₂ d j =
              if j < idx then cell s₁ d j
              else if j + 1 < s.capacity then cell s₁ d (j + 1)
              else 0 := by
            intro d j
            show (((s.lanes.map _).map _).getD d []).getD j 0 = _
            rw [getD_map_lanes]
            by_cases hd : d < (s.lanes.map (fun lane => lane.set idx 0)).length
            · rw [if_pos hd]
              have hd' : d < s.laneCount := by
                rw [← hwf.1]
                simpa using hd
              have hl1 : ((s.lanes.map (fun lane => lane.set idx 0)).getD d []).length =
                  s.capacity := hwf1.2 d hd'
              rw [shiftLane_getD _ idx s.capacity j hl1 hidx]
              rfl
            · rw [if_neg hd]
              have hd2 : ¬ d < s.lanes.length := by simpa using hd
              have hmapd : (s.lanes.map (fun lane => lane.set idx 0)).getD d [] = [] :=
                getD_of_length_le (by rw [List.length_map]; exact Nat.le_of_not_lt hd2)
              have hz : cell s₁ d j = 0 := by
                show ((s.lanes.map (fun lane => lane.set idx 0)).getD d []).getD j 0 = 0
                rw [hmapd]
                rfl
              have hz2 : cell s₁ d (j + 1) = 0 := by
                show ((s.lanes.map (fun lane => lane.set idx 0)).getD d []).getD (j + 1) 0 = 0
                rw [hmapd]
                rfl
              rw [hz, hz2]
              simp
          -- live slots of the shifted state inject into those of s₁
          have hinj : liveCount s₂ ≤ liveCount s₁ := by
            refine Finset.card_le_card_of_injOn
              (fun j => if j < idx then j else j + 1) (fun j hj => ?_) ?_
            · obtain ⟨hjr, hjl⟩ := Finset.mem_filter.mp hj
              have hjC : j < s.capacity := by
                have := Finset.mem_range.mp hjr
                exact this
              obtain ⟨d, hd, hne⟩ := (liveB_iff s₂ j).mp hjl
              rw [hcell2 d j] at hne
              show (if j < idx then j else j + 1) ∈
                (Finset.range s₁.capacity).filter (fun i => liveB s₁ i = true)
              have hc1 : s₁.capacity = s.capacity := rfl
              by_cases h1 : j < idx
              · rw [if_pos h1] at hne ⊢
                refine Finset.mem_filter.mpr ⟨Finset.mem_range.mpr (by omega), ?_⟩
                exact liveB_of_cell_ne s₁ j d hd hne
              · rw [if_neg h1] at hne ⊢
                by_cases h2 : j + 1 < s.capacity
                · rw [if_pos h2] at hne
                  refine Finset.mem_filter.mpr ⟨Finset.mem_range.mpr (by omega), ?_⟩
                  exact liveB_of_cell_ne s₁ (j + 1) d hd hne
                · rw [if_neg h2] at hne
                  exact absurd rfl hne
            · intro a _ b _ hab
              simp only at hab
              split_ifs at hab <;> omega
          refine ⟨?_, ?_, ?_, ?_, ?_⟩
          · show liveCount s₂ ≤ (if 0 < s.len then s.len - 1 else s.len)
            rw [show (if 0 < s.len then s.len - 1 else s.len) = s.len - 1 by split <;> omega]
            omega
          · show (if 0 < s.len then s.len - 1 else s.len) ≤ s.capacity
            split <;> omega
          · show (if 0 < s.len then s.len - 1 else s.len) < s.capacity
            split <;> omega
          · show s₂.lanes.length = s.laneCount
            rw [hs₂]
            show ((s.lanes.map _).map _).length = s.laneCount
            rw [List.length_map, List.length_map, hwf.1]
          · intro d hd
            have hd' : d < s.laneCount := hd
            show (s₂.lanes.getD d []).length = s.capacity
            rw [hs₂]
            show (((s.lanes.map _).map _).getD d []).length = s.capacity
            rw [getD_map_lanes, if_pos (by rw [List.length_map, hwf.1]; exact hd')]
            have hl1 : ((s.lanes.map (fun lane => lane.set idx 0)).getD d []).length =
                s.capacity := hwf1.2 d hd'
            rw [List.length_append, List.length_append, List.length_take,
              List.length_drop, hl1]
            simp
            omega
        · rw [if_neg hshift]
          refine ⟨?_, ?_, ?_, hwf1.1, hwf1.2⟩
          · show liveCount s₁ ≤ (if 0 < s.len then s.len - 1 else s.len)
            rw [show (if 0 < s.len then s.len - 1 else s.len) = s.len - 1 by split <;> omega]
            omega
          · show (if 0 < s.len then s.len - 1 else s.len) ≤ s.capacity
            split <;> omega
          · show (if 0 < s.len then s.len - 1 else s.len) < s.capacity
            split <;> omega
      · rw [if_neg hcomp]
        refine ⟨?_, ?_, hcur, hwf1.1, hwf1.2⟩
        · show liveCount s₁ ≤ (if 0 < s.len then s.len - 1 else s.len)
          rw [show (if 0 < s.len then s.len - 1 else s.len) = s.len - 1 by split <;> omega]
          omega
        · show (if 0 < s.len then s.len - 1 else s.len) ≤ s.capacity
          split <;> omega

theorem inv_truncLoop (rows : List (List Nat)) :
    ∀ s : Silo, liveCount s ≤ s.len → s.len + rows.length ≤ s.capacity →
      s.cursor < s.capacity → LanesWF s → Inv (truncInsertLoop s rows).1 := by
  induction rows with
  | nil =>
    intro s h1 h2 hcur hwf
    show Inv s
    exact ⟨h1, by omega, hcur, hwf⟩
  | cons r rs' ih =>
    intro s h1 h2 hcur hwf
    have h2' : s.len + (rs'.length + 1) ≤ s.capacity := by simpa using h2
    show Inv (truncInsertLoop s (r :: rs')).1
    unfold truncInsertLoop
    by_cases hg : r.length ≠ s.laneCount
    · rw [if_pos hg]
      show Inv s
      exact ⟨h1, by omega, hcur, hwf⟩
    · rw [if_neg hg]
      set sN : Silo := { s with
        lanes := mapLanes (fun d lane =>
          if d < r.length then lane.set s.cursor (r.getD d 0) else lane) s.lanes
        len := s.len + 1
        cursor := (s.cursor + 1) % s.capacity } with hsN
      have hfr : ∀ j, j ≠ s.cursor → liveB sN j = liveB s j := by
        intro j hj
        exact liveB_congr s sN j rfl (fun d => cell_insertRow_ne s r d j hj)
      have hstep := liveCount_le_succ_of s sN rfl s.cursor hfr
      refine ih sN ?_ ?_ ?_ ?_
      · show liveCount sN ≤ s.len + 1
        omega
      · show s.len + 1 + rs'.length ≤ s.capacity
        omega
      · show (s.cursor + 1) % s.capacity < s.capacity
        exact Nat.mod_lt _ (by omega)
      · exact lanesWF_insertRow s r hwf

theorem inv_truncateRun (s : Silo) (rows : List (List Nat)) (hinv : Inv s) :
    Inv (truncateRun s rows).state := by
  obtain ⟨hlive, hlen, hcur, hwf⟩ := hinv
  show Inv (truncInsertLoop { s with
      lanes := s.lanes.map (fun lane => lane.map (fun _ => 0))
      len := 0, cursor := 0 } (rows.take s.capacity)).1
  set s₀ : Silo := { s with
    lanes := s.lanes.map (fun lane => lane.map (fun _ => 0))
    len := 0, cursor := 0 } with hs₀
  refine inv_truncLoop _ s₀ ?_ ?_ ?_ ?_
  · show liveCount s₀ ≤ 0
    have hall : ∀ j, liveB s₀ j = false := by
      intro j
      rw [Bool.eq_false_iff]
      intro hcon
      obtain ⟨d, _, hne⟩ := (liveB_iff _ j).mp hcon
      apply hne
      show ((s.lanes.map _).getD d []).getD j 0 = 0
      rw [getD_map_lanes]
      by_cases hd : d < s.lanes.length
      · rw [if_pos hd]
        exact getD_map_zero _ _
      · rw [if_neg hd]
        rfl
    unfold liveCount
    rw [Finset.filter_eq_empty_iff.mpr (fun j _ => by
      rw [hall j]; exact Bool.false_ne_true)]
    simp
  · show 0 + (rows.take s.capacity).length ≤ s.capacity
    rw [List.length_take]
    omega
  · show (0 : Nat) < s.capacity
    omega
  · refine ⟨?_, fun d hd => ?_⟩
    · show (s.lanes.map _).length = s.laneCount
      rw [List.length_map, hwf.1]
    · have hd' : d < s.laneCount := hd
      show ((s.lanes.map _).getD d []).length = s.capacity
      rw [getD_map_lanes, if_pos (by rw [hwf.1]; exact hd'), List.length_map]
      exact hwf.2 d hd'

theorem inv_upsertRun (s : Silo) (ix id : Nat) (r : List Nat) (hinv : Inv s) :
    Inv (upsertRun s ix id r).state := by
  unfold upsertRun
  split
  · exact inv_updateByIdRun s ix id r hinv
  · exact inv_insertBatchRun [r] _ (inv_updateByIdRun s ix id r hinv)

theorem inv_applyOp (s : Silo) (op : Op) (hinv : Inv s) : Inv (applyOp s op).1 := by
  cases op with
  | insertB rows => exact inv_insertBatchRun rows s hinv
  | laneB ix vs => exact inv_apiLaneBatch s ix vs hinv
  | updateB ix id row => exact inv_updateByIdRun s ix id row hinv
  | upsertB ix id row => exact inv_upsertRun s ix id row hinv
  | deleteB idx => exact inv_deleteRun s idx hinv
  | purgeB ix id => exact inv_purgeRun s ix id hinv
  | truncB rows => exact inv_truncateRun s rows hinv

theorem inv_runOps (ops : List Op) : ∀ s : Silo, Inv s → Inv (runOps s ops).1 := by
  induction ops with
  | nil => intro s hinv; exact hinv
  | cons op ops' ih =>
    intro s hinv
    exact ih (applyOp s op).1 (inv_applyOp s op hinv)

theorem cell_emptySilo (C D : Nat) (aof comp : Bool) (d i : Nat) :
    cell (emptySilo C D aof comp) d i = 0 := by
  show ((List.replicate D (List.replicate C 0)).getD d []).getD i 0 = 0
  by_cases hd : d < D
  · rw [getD_replicate_of_lt hd]
    exact getD_replicate_zero C i
  · have hz : (List.replicate D (List.replicate C 0)).getD d [] = [] :=
      getD_of_length_le (by simpa using Nat.le_of_not_lt hd)
    rw [hz]
    rfl

theorem inv_emptySilo (C D : Nat) (aof comp : Bool) (hC : 0 < C) :
    Inv (emptySilo C D aof comp) := by
  have hall : ∀ j, liveB (emptySilo C D aof comp) j = false := by
    intro j
    rw [Bool.eq_false_iff]
    intro hcon
    obtain ⟨d, _, hne⟩ := (liveB_iff _ j).mp hcon
    exact hne (cell_emptySilo C D aof comp d j)
  refine ⟨?_, by simp [emptySilo], by simpa [emptySilo] using hC, lanesWF_empty C D aof comp⟩
  show liveCount (emptySilo C D aof comp) ≤ 0
  unfold liveCount
  rw [Finset.filter_eq_empty_iff.mpr (fun j _ => by
    rw [hall j]; exact Bool.false_ne_true)]
  simp

/-- C3 counterexample: a single `insert_batch` of the all-zero row into an
empty one-slot store leaves `len = 1` while no row is live — `len` does not
equal the number of live rows. -/
theorem len_equals_live_cex :
    (insertBatchRun (emptySilo 1 1 false false) [[0]]).state.len = 1 ∧
    liveCount (insertBatchRun (emptySilo 1 1 false false) [[0]]).state = 0 := by
  constructor
  · rfl
  · rfl

/-- C3 (amended): in every Silo state reachable by `insert_batch`,
`insert_lane_batch`, `update_by_id`, `upsert`, `delete`, `purge_by_id`, and
`truncate` from an empty store of positive capacity, `len` is an upper
bound on the number of live rows (a row is live iff some lane's cell is
non-zero).  Equality — as the claim states it — fails, because the
operations may store rows or lane values that are zero everywhere while
still counting them in `len` (see the counterexample). -/
theorem len_bounds_live_rows (C D : Nat) (aof comp : Bool) (ops : List Op) (hC : 0 < C) :
    liveCount (runOps (emptySilo C D aof comp) ops).1 ≤
      (runOps (emptySilo C D aof comp) ops).1.len :=
  (inv_runOps ops (emptySilo C D aof comp) (inv_emptySilo C D aof comp hC)).1

/-- Witness for C3 (amended) on a concrete mixed operation sequence. -/
theorem len_bounds_live_rows_witness :
    liveCount (runOps (emptySilo 2 2 true false)
      [Op.insertB [[7, 8]], Op.laneB 1 [5], Op.deleteB 0, Op.truncB [[1, 2]]]).1 ≤
    (runOps (emptySilo 2 2 true false)
      [Op.insertB [[7, 8]], Op.laneB 1 [5], Op.deleteB 0, Op.truncB [[1, 2]]]).1.len :=
  len_bounds_live_rows 2 2 true false
    [Op.insertB [[7, 8]], Op.laneB 1 [5], Op.deleteB 0, Op.truncB [[1, 2]]] (by decide)

theorem replay_append (s : Silo) (a b : List AofRecord) :
    replay s (a ++ b) = replay (replay s a) b := List.foldl_append _ _ _ _

theorem aof_insertRow (s : Silo) (r : List Nat) :
    (insertRow s r).aofEnabled = s.aofEnabled := rfl

theorem aof_insertBatchRun (rows : List (List Nat)) :
    ∀ s : Silo, (insertBatchRun s rows).state.aofEnabled = s.aofEnabled := by
  induction rows with
  | nil => intro s; rfl
  | cons r rest ih =>
    intro s
    show (insertBatchRun s (r :: rest)).state.aofEnabled = s.aofEnabled
    unfold insertBatchRun
    split
    · rfl
    · exact ih (insertRow s r)

theorem aof_apiLaneBatch (s : Silo) (ix : Nat) (vs : List Nat) :
    (apiLaneBatch s ix vs).state.aofEnabled = s.aofEnabled := by
  unfold apiLaneBatch laneBatchRun
  split
  · rfl
  · split
    · rfl
    · split <;> rfl

theorem aof_foldOverwrite (r : List Nat) (ts : List Nat) :
    ∀ s : Silo, (ts.foldl (fun acc i => overwriteAt acc i r) s).aofEnabled =
      s.aofEnabled := by
  induction ts with
  | nil => intro s; rfl
  | cons t ts' ih => intro s; exact ih (overwriteAt s t r)

theorem aof_updateByIdRun (s : Silo) (ix id : Nat) (r : List Nat) :
    (updateByIdRun s ix id r).state.aofEnabled = s.aofEnabled := by
  unfold updateByIdRun
  split
  · rfl
  · split
    · rfl
    · split
      · rfl
      · exact aof_foldOverwrite r _ s

theorem aof_foldZero (ts : List Nat) :
    ∀ s : Silo, (ts.foldl zeroRowStep s).aofEnabled = s.aofEnabled := by
  induction ts with
  | nil => intro s; rfl
  | cons t ts' ih => intro s; exact ih (zeroRowStep s t)

theorem aof_purgeRun (s : Silo) (ix id : Nat) :
    (purgeRun s ix id).1.aofEnabled = s.aofEnabled := by
  unfold purgeRun
  split
  · rfl
  · exact aof_foldZero _ s

theorem aof_deleteRun (s : Silo) (idx : Nat) :
    (deleteRun s idx).1.aofEnabled = s.aofEnabled := by
  unfold deleteRun
  split
  · rfl
  · split
    · rfl
    · split <;> rfl

theorem aof_truncInsertLoop (rows : List (List Nat)) :
    ∀ s : Silo, (truncInsertLoop s rows).1.aofEnabled = s.aofEnabled := by
  induction rows with
  | nil => intro s; rfl
  | cons r rs' ih =>
    intro s
    show (truncInsertLoop s (r :: rs')).1.aofEnabled = s.aofEnabled
    unfold truncInsertLoop
    split
    · rfl
    · exact ih _

theorem aof_truncateRun (s : Silo) (rows : List (List Nat)) :
    (truncateRun s rows).state.aofEnabled = s.aofEnabled := by
  show (truncInsertLoop _ (rows.take s.capacity)).1.aofEnabled = s.aofEnabled
  rw [aof_truncInsertLoop]

theorem aof_upsertRun (s : Silo) (ix id : Nat) (r : List Nat) :
    (upsertRun s ix id r).state.aofEnabled = s.aofEnabled := by
  unfold upsertRun
  split
  · exact aof_updateByIdRun s ix id r
  · show (insertBatchRun (updateByIdRun s ix id r).state [r]).state.aofEnabled =
      s.aofEnabled
    rw [aof_insertBatchRun]
    exact aof_updateByIdRun s ix id r

theorem aof_applyOp (s : Silo) (op : Op) :
    (applyOp s op).1.aofEnabled = s.aofEnabled := by
  cases op with
  | insertB rows => exact aof_insertBatchRun rows s
  | laneB ix vs => exact aof_apiLaneBatch s ix vs
  | updateB ix id row => exact aof_updateByIdRun s ix id row
  | upsertB ix id row => exact aof_upsertRun s ix id row
  | deleteB idx => exact aof_deleteRun s idx
  | purgeB ix id => exact aof_purgeRun s ix id
  | truncB rows => exact aof_truncateRun s rows

/-- Replaying the Insert records of a batch re-applies the batch. -/
theorem replay_insertBatch (rows : List (List Nat)) :
    ∀ s : Silo, s.aofEnabled = true →
      replay s (insertBatchRun s rows).aof = (insertBatchRun s rows).state := by
  induction rows with
  | nil => intro s _; rfl
  | cons r rest ih =>
    intro s haof
    show replay s (insertBatchRun s (r :: rest)).aof = (insertBatchRun s (r :: rest)).state
    unfold insertBatchRun
    by_cases hg : r.length ≠ s.laneCount
    · rw [if_pos hg]
      rfl
    · rw [if_neg hg]
      show replay s ((if s.aofEnabled then [AofRecord.insert r] else []) ++
        (insertBatchRun (insertRow s r) rest).aof) = _
      rw [if_pos haof, replay_append]
      have hfirst : replay s [AofRecord.insert r] = insertRow s r := by
        show (insertBatchRun s [r]).state = insertRow s r
        unfold insertBatchRun
        rw [if_neg hg]
        rfl
      rw [hfirst]
      exact ih (insertRow s r) haof

theorem replay_apiLaneBatch (s : Silo) (ix : Nat) (vs : List Nat)
    (haof : s.aofEnabled = true) :
    replay s (apiLaneBatch s ix vs).aof = (apiLaneBatch s ix vs).state := by
  unfold apiLaneBatch laneBatchRun
  split
  · rfl
  · split
    · rfl
    · split
      · rfl
      · rename_i hvs hg1 hg2
        show replayRecord s (AofRecord.laneBatch ix vs) = _
        show (apiLaneBatch s ix vs).state = _
        unfold apiLaneBatch laneBatchRun
        rw [if_neg hvs, if_neg hg1, if_neg hg2]

theorem replay_updateByIdRun (s : Silo) (ix id : Nat) (r : List Nat)
    (haof : s.aofEnabled = true) :
    replay s (updateByIdRun s ix id r).aof = (updateByIdRun s ix id r).state := by
  unfold updateByIdRun
  split
  · rfl
  · split
    · rfl
    · split
      · rfl
      · rename_i hg1 hg2 hg3
        show replayRecord s (AofRecord.update ix id r) = _
        show (updateByIdRun s ix id r).state = _
        unfold updateByIdRun
        rw [if_neg hg1, if_neg hg2, if_neg hg3]

theorem replay_purgeRun (s : Silo) (ix id : Nat) (haof : s.aofEnabled = true) :
    replay s (purgeRun s ix id).2 = (purgeRun s ix id).1 := by
  unfold purgeRun
  split
  · rfl
  · rename_i hg
    show replayRecord s (AofRecord.purge ix id) = _
    show (purgeRun s ix id).1 = _
    unfold purgeRun
    rw [if_neg hg]

theorem replay_truncateRun (s : Silo) (haof : s.aofEnabled = true) :
    replay s (truncateRun s []).aof = (truncateRun s []).state := by
  show replay s (if s.aofEnabled then [AofRecord.trunc] else []) = _
  rw [if_pos haof]
  rfl

theorem replay_applyOp (s : Silo) (op : Op) (haof : s.aofEnabled = true)
    (hallow : AllowedC5 op = true) (hok : opErr s op = none) :
    replay s (applyOp s op).2 = (applyOp s op).1 := by
  cases op with
  | insertB rows =>
    have hok' : (insertBatchRun s rows).err = none := hok
    show replay s (if (insertBatchRun s rows).err = none then
        (insertBatchRun s rows).aof else []) = (insertBatchRun s rows).state
    rw [if_pos hok']
    exact replay_insertBatch rows s haof
  | laneB ix vs =>
    have hok' : (apiLaneBatch s ix vs).err = none := hok
    show replay s (if (apiLaneBatch s ix vs).err = none then
        (apiLaneBatch s ix vs).aof else []) = (apiLaneBatch s ix vs).state
    rw [if_pos hok']
    exact replay_apiLaneBatch s ix vs haof
  | updateB ix id row => exact replay_updateByIdRun s ix id row haof
  | upsertB ix id row => cases hallow
  | deleteB idx => cases hallow
  | purgeB ix id => exact replay_purgeRun s ix id haof
  | truncB rows =>
    have hrows : rows = [] := List.isEmpty_iff.mp hallow
    subst hrows
    have hok' : (truncateRun s []).err = none := hok
    show replay s (if (truncateRun s []).err = none then
        (truncateRun s []).aof else []) = (truncateRun s []).state
    rw [if_pos hok']
    exact replay_truncateRun s haof

theorem replay_runOps (ops : List Op) :
    ∀ s : Silo, s.aofEnabled = true → (∀ op ∈ ops, AllowedC5 op = true) →
      runOk s ops = true →
      replay s (runOps s ops).2 = (runOps s ops).1 := by
  induction ops with
  | nil => intro s _ _ _; rfl
  | cons op ops' ih =>
    intro s haof hallow hok
    have hok2 : (opErr s op).isNone = true ∧ runOk (applyOp s op).1 ops' = true := by
      have : ((opErr s op).isNone && runOk (applyOp s op).1 ops') = true := hok
      exact Bool.and_eq_true_iff.mp this
    show replay s ((applyOp s op).2 ++ (runOps (applyOp s op).1 ops').2) =
      (runOps (applyOp s op).1 ops').1
    rw [replay_append, replay_applyOp s op haof (hallow op (List.mem_cons_self op ops'))
      (Option.isNone_iff_eq_none.mp hok2.1)]
    exact ih (applyOp s op).1 (by rw [aof_applyOp]; exact haof)
      (fun o ho => hallow o (List.mem_cons_of_mem op ho)) hok2.2

/-- C5 counterexample: a truncate carrying one replacement row leaves the
live silo with `len = 1`, but its AOF stream is the bare Truncate record,
whose replay against a fresh silo yields `len = 0`. -/
theorem aof_replay_trunc_cex :
    (runOps (emptySilo 1 1 true false) [Op.truncB [[1]]]).1.len = 1 ∧
    (runOps (emptySilo 1 1 true false) [Op.truncB [[1]]]).2 = [AofRecord.trunc] ∧
    (replay (emptySilo 1 1 true false)
      (runOps (emptySilo 1 1 true false) [Op.truncB [[1]]]).2).len = 0 := by
  refine ⟨rfl, rfl, rfl⟩

/-- C5 (amended): for every error-free sequence of insert, update, purge,
lane-batch, and row-free truncate operations applied to a live Silo with
AOF enabled, replaying the emitted AOF records in channel order against a
fresh empty Silo of the same configuration yields the same observable state
(`len`, `cursor` and lane contents).  A truncate that carries replacement
rows is excluded: the wire format logs it as a bare Truncate record, losing
the rows (see the counterexample).  A call that errors is excluded too:
`engine/api.rs` drops its collected AOF records before the channel send
while the partial mutation stays in memory. -/
theorem aof_replay_equiv (C D : Nat) (comp : Bool) (ops : List Op)
    (hallow : ∀ op ∈ ops, AllowedC5 op = true)
    (hok : runOk (emptySilo C D true comp) ops = true) :
    (replay (emptySilo C D true comp) (runOps (emptySilo C D true comp) ops).2).len =
      (runOps (emptySilo C D true comp) ops).1.len ∧
    (replay (emptySilo C D true comp) (runOps (emptySilo C D true comp) ops).2).cursor =
      (runOps (emptySilo C D true comp) ops).1.cursor ∧
    (replay (emptySilo C D true comp) (runOps (emptySilo C D true comp) ops).2).lanes =
      (runOps (emptySilo C D true comp) ops).1.lanes := by
  have h := replay_runOps ops (emptySilo C D true comp) rfl hallow hok
  rw [h]
  exact ⟨rfl, rfl, rfl⟩

/-- Witness for C5 (amended) on a concrete error-free sequence exercising
all five operation kinds. -/
theorem aof_replay_equiv_witness :
    (replay (emptySilo 2 1 true false) (runOps (emptySilo 2 1 true false)
      [Op.insertB [[4]], Op.updateB 0 4 [9], Op.purgeB 0 9, Op.truncB [],
        Op.laneB 0 [3]]).2).len =
    (runOps (emptySilo 2 1 true false)
      [Op.insertB [[4]], Op.updateB 0 4 [9], Op.purgeB 0 9, Op.truncB [],
        Op.laneB 0 [3]]).1.len :=
  (aof_replay_equiv 2 1 false
    [Op.insertB [[4]], Op.updateB 0 4 [9], Op.purgeB 0 9, Op.truncB [], Op.laneB 0 [3]]
    (by decide) (by decide)).1

end Orby
